import Mathlib

/-!
# Verification of the bounded priority-driven website crawler (`scraper_v3.py`)

Shallow embedding of the crawler's data model and operations:

* Pure string helpers mirror the Python `str` operations used by the code
  (`in`-substring test, `lower`, `strip`, `count`, `rstrip`).
* `urlsplit` / `urlparseCore` model CPython 3.11 `urllib.parse.urlparse`
  (the stdlib routine the code calls): WHATWG sanitization (leading
  C0-control/space strip, tab/CR/LF removal), scheme recognition and
  lowercasing, netloc splitting with the mismatched-bracket `ValueError`
  (modelled as `none`), fragment and query splitting, and params splitting
  for schemes in `uses_params`.  The NFKC netloc check and the bracketed-host
  IP validation concern non-ASCII or bracketed hosts that no claim touches
  and are omitted; a `none` result stands for `urlparse` raising.
* `normalize_url`, `is_valid_url`, `score_url_priority` are translated
  line-by-line from `IntelligentScraper`.
* The crawl orchestrator `crawl_website` is embedded with the network,
  the language classifier and the wall clock supplied as an explicit
  environment (`Env`); HTML-derived data (extracted text, links, company
  name, enterprise-signal matches of a fetched page) is the fetch oracle's
  output, since markup parsing itself is outside the crawler's logic.
  A ghost `fetched` log records every URL passed to `scrape_page`.
-/

namespace Spec2Proof

/-! ## Python string operation helpers -/

/-- Python `needle in hay` substring test on character lists. -/
def isSub (needle : List Char) : List Char → Bool
  | [] => needle.isEmpty
  | c :: t => needle.isPrefixOf (c :: t) || isSub needle t

/-- Python `str.lower()`; ASCII case mapping (all data in the code is ASCII). -/
def lowerL (l : List Char) : List Char := l.map Char.toLower

/-- Python `str.strip()`: drop whitespace from both ends. -/
def stripL (l : List Char) : List Char :=
  ((l.dropWhile Char.isWhitespace).reverse.dropWhile Char.isWhitespace).reverse

/-- Python `str.count(c)` for a single-character argument. -/
def countCh (c : Char) (l : List Char) : Nat := (l.filter (fun d => d == c)).length

/-- Python `str.rstrip('/')`. -/
def rstripSlash (l : List Char) : List Char :=
  (l.reverse.dropWhile (fun c => c == '/')).reverse

/-- Number of positions of `hay` at which `needle` starts (occurrence count). -/
def subCount (needle : List Char) : List Char → Nat
  | [] => if needle.isEmpty then 1 else 0
  | c :: t => (if needle.isPrefixOf (c :: t) then 1 else 0) + subCount needle t

/-! ## Model of CPython 3.11 `urllib.parse.urlparse` -/

/-- `scheme_chars`: ASCII letters, digits, `+`, `-`, `.`. -/
def schemeChar (c : Char) : Bool := c.isAlpha || c.isDigit || c == '+' || c == '-' || c == '.'

/-- The three netloc/hierarchy delimiters `/`, `?`, `#`. -/
def urlDelim (c : Char) : Bool := c == '/' || c == '?' || c == '#'

/-- WHATWG sanitization in `urlsplit`: strip leading C0 control or space
characters, then remove every tab, CR and LF. -/
def sanitize (l : List Char) : List Char :=
  (l.dropWhile (fun c => c.toNat ≤ 32)).filter (fun c => !(c == '\t' || c == '\r' || c == '\n'))

/-- `url[0].isascii() and url[0].isalpha()` (false on the empty string). -/
def headAlpha : List Char → Bool
  | c :: _ => c.isAlpha
  | [] => false

/-- Scheme recognition: `i = url.find(':')`; the prefix before it must be
nonempty, start with an ASCII letter and consist of `scheme_chars`; the
scheme is lowercased.  (A prefix starting with `:` has no alphabetic head,
so the `i > 0` guard is subsumed by the head check.) -/
def splitScheme (url : List Char) : List Char × List Char :=
  let pre := url.takeWhile (fun c => c != ':')
  if pre.length < url.length ∧ headAlpha url = true ∧ pre.all schemeChar = true
  then (lowerL pre, url.drop (pre.length + 1))
  else ([], url)

/-- `_splitnetloc` guarded by `url[:2] == '//'`, with the
"Invalid IPv6 URL" `ValueError` for mismatched brackets modelled as `none`. -/
def splitNetlocAt2 (rest : List Char) : Option (List Char × List Char) :=
  if rest.take 2 = ['/', '/'] then
    let t := rest.drop 2
    let n := t.takeWhile (fun c => !urlDelim c)
    if (n.contains '[' && !n.contains ']') || (n.contains ']' && !n.contains '[') then
      none
    else
      some (n, t.dropWhile (fun c => !urlDelim c))
  else some ([], rest)

/-- Python `url.split(c, 1)` guarded by `if c in url`: everything before the
first `c`, and everything after it (empty when `c` is absent). -/
def splitFirst (c : Char) (l : List Char) : List Char × List Char :=
  (l.takeWhile (fun d => d != c), (l.dropWhile (fun d => d != c)).drop 1)

structure SplitResult where
  scheme : List Char
  netloc : List Char
  path : List Char
  query : List Char
  fragment : List Char
deriving Repr, DecidableEq

/-- The body of `urlsplit` after the WHATWG sanitization. -/
def urlsplitSan (url : List Char) : Option SplitResult :=
  let sr := splitScheme url
  match splitNetlocAt2 sr.2 with
  | none => none
  | some nl =>
    let fr := splitFirst '#' nl.2
    let qr := splitFirst '?' fr.1
    some ⟨sr.1, nl.1, qr.1, qr.2, fr.2⟩

/-- CPython `urlsplit` with `allow_fragments=True`; `none` models `ValueError`. -/
def urlsplit (url0 : List Char) : Option SplitResult :=
  urlsplitSan (sanitize url0)

/-- `uses_params`: schemes for which `urlparse` splits `;params`
off the last path segment. -/
def uses_params : List (List Char) :=
  ["", "ftp", "hdl", "prospero", "http", "imap", "https", "shttp", "rtsp",
   "rtsps", "rtspu", "sip", "sips", "mms", "sftp", "tel"].map String.toList

/-- CPython `_splitparams` (only ever called with `';' ∈ path`):
split at the first `;` of the last `/`-segment, or of the whole path
when it has no `/`. -/
def splitParams (path : List Char) : List Char × List Char :=
  if path.contains '/' then
    let seg := (path.reverse.takeWhile (fun c => c != '/')).reverse
    if seg.contains ';' then
      (path.take (path.length - seg.length) ++ (seg.takeWhile (fun c => c != ';')),
       (seg.dropWhile (fun c => c != ';')).drop 1)
    else (path, [])
  else splitFirst ';' path

structure ParseResult where
  scheme : List Char
  netloc : List Char
  path : List Char
  params : List Char
  query : List Char
  fragment : List Char
deriving Repr, DecidableEq

/-- CPython `urlparse`: `urlsplit` plus params splitting for `uses_params`
schemes; `none` models the `ValueError` raised on mismatched brackets. -/
def urlparseCore (url : List Char) : Option ParseResult :=
  match urlsplit url with
  | none => none
  | some r =>
    if uses_params.contains r.scheme && r.path.contains ';' then
      let pp := splitParams r.path
      some ⟨r.scheme, r.netloc, pp.1, pp.2, r.query, r.fragment⟩
    else
      some ⟨r.scheme, r.netloc, r.path, [], r.query, r.fragment⟩

/-! ## `IntelligentScraper` pure URL functions -/

/-- `IntelligentScraper.normalize_url`:
`f"{parsed.scheme}://{parsed.netloc}{parsed.path.rstrip('/')}"`. -/
def normCore (p : ParseResult) : List Char :=
  p.scheme ++ (':' :: '/' :: '/' :: []) ++ p.netloc ++ rstripSlash p.path

/-- `normalize_url` on strings; `none` models the uncaught `ValueError`
that `urlparse` can raise. -/
def normalize_url (url : String) : Option String :=
  (urlparseCore url.data).map (fun p => ⟨normCore p⟩)

/-- `skip_extensions` from `is_valid_url`. -/
def skip_extensions : List (List Char) :=
  [".pdf", ".jpg", ".jpeg", ".png", ".gif", ".svg", ".ico",
   ".zip", ".tar", ".gz", ".rar",
   ".doc", ".docx", ".xls", ".xlsx", ".ppt", ".pptx",
   ".mp4", ".mp3", ".avi", ".mov", ".wav",
   ".css", ".js", ".xml", ".json"].map String.toList

/-- `skip_patterns` from `is_valid_url` (substrings of the whole URL). -/
def skip_patterns : List (List Char) :=
  ["login", "signin", "sign-in", "signup", "sign-up", "register",
   "cart", "checkout", "payment", "account", "profile",
   "search", "filter", "sort",
   "privacy", "terms", "cookie", "legal", "disclaimer",
   "wp-admin", "wp-content", "wp-includes",
   "feed", "rss", "atom",
   "#", "javascript:", "mailto:", "tel:"].map String.toList

/-- `IntelligentScraper.is_valid_url`; the `try/except: return False` wrapper
turns the parse `ValueError` into `false`. -/
def is_valid_url (url : String) (base_domain : String) : Bool :=
  match urlparseCore url.data with
  | none => false
  | some p =>
    if !isSub base_domain.data p.netloc then false
    else if skip_extensions.any (fun e => e.isSuffixOf (lowerL p.path)) then false
    else if skip_patterns.any (fun pat => isSub pat (lowerL url.data)) then false
    else true

/-- `priority_keywords` (URL scoring list, +10 each). -/
def priority_keywords : List (List Char) :=
  ["about", "company", "who-we-are", "our-story", "overview", "about-us",
   "services", "solutions", "products", "what-we-do", "offerings", "capabilities",
   "technology", "innovation", "ai", "artificial-intelligence", "digital", "ml",
   "machine-learning", "data", "analytics", "automation",
   "case-studies", "portfolio", "work", "projects", "success", "clients",
   "testimonials", "success-stories", "customers", "case-study",
   "team", "leadership", "people", "executives", "our-team",
   "careers", "jobs", "join-us", "work-with-us",
   "news", "blog", "insights", "resources", "press"].map String.toList

/-- `priority_link_texts` (link-text scoring list, +20 once). -/
def priority_link_texts : List (List Char) :=
  ["about us", "about", "company", "who we are", "our company", "company info",
   "about the company", "learn more", "our story",
   "products", "our products", "services", "our services", "solutions",
   "what we do", "offerings", "capabilities",
   "technology", "innovation", "ai", "artificial intelligence",
   "machine learning", "data analytics", "automation",
   "case studies", "portfolio", "our work", "projects", "success stories",
   "client stories", "customer success",
   "team", "leadership", "our team", "people", "meet the team",
   "careers", "join us", "work with us", "jobs"].map String.toList

/-- `high_value_combos` (+25 per pair present in URL+text+context). -/
def high_value_combos : List (List Char × List Char) :=
  [("about", "company"), ("our", "services"), ("what", "do"), ("case", "stud"),
   ("success", "stor"), ("our", "team"), ("artificial", "intelligence"),
   ("machine", "learning")].map (fun p => (p.1.toList, p.2.toList))

/-- `combined = url_lower + ' ' + text_lower + ' ' + context_lower`. -/
def scoreCombined (url_lower text_lower context_lower : List Char) : List Char :=
  url_lower ++ (' ' :: text_lower) ++ (' ' :: context_lower)

/-- `IntelligentScraper.score_url_priority`, translated clause by clause:
+10 per keyword in the lowercased URL; +20 once for a link-text phrase
(`break` after the first hit); +5 once for a context keyword; −2 per `/`
beyond 3; +25 per combo pair in URL+text+context; floor of 1 when the
total is exactly 0 and the URL is nonempty. -/
def score_url_priority (url link_text anchor_context : String) : Int :=
  let url_lower := lowerL url.data
  let text_lower := stripL (lowerL link_text.data)
  let context_lower := stripL (lowerL anchor_context.data)
  let score : Int :=
    priority_keywords.foldl (fun s k => if isSub k url_lower then s + 10 else s) 0
  let score := if priority_link_texts.any (fun p => isSub p text_lower) then score + 20 else score
  let score := if priority_keywords.any (fun k => isSub k context_lower) then score + 5 else score
  let path_depth := countCh '/' url_lower
  let score := if path_depth > 3 then score - ((path_depth : Int) - 3) * 2 else score
  let combined := scoreCombined url_lower text_lower context_lower
  let score := high_value_combos.foldl
    (fun s p => if isSub p.1 combined && isSub p.2 combined then s + 25 else s) score
  if score == 0 && decide (url_lower.length > 0) then 1 else score

/-! ## Crawl orchestrator model

The network, the language classifier and the wall clock are an explicit
environment.  A fetched page's HTML-derived data (normalized text, links
with anchor text and parent context, `extract_company_name` result, and
`detect_enterprise_signals` matches) is the fetch oracle's output: markup
parsing and the regex signal table act on response bytes only and no claim
depends on their internals.  `Except.error e` models any request exception
(transport error or the `raise_for_status` on a non-2xx reply), carrying
`str(e)`. -/

structure LinkData where
  url : String
  text : String
  context : String
deriving Repr, DecidableEq

structure RawPage where
  text : String
  links : List LinkData
  companyName : String
  signals : List (String × List String)
deriving Repr

structure Env where
  fetch : String → Except String RawPage
  detect : String → Option String
  timedOut : Nat → Bool

/-- `IntelligentScraper.is_english`: empty or short text passes; otherwise
classify the stripped 200-character sample; a `LangDetectException`
(`detect = none`) passes. -/
def is_english (env : Env) (text : String) : Bool :=
  if text = "" || (stripL text.data).length < 50 then true
  else
    match env.detect (⟨stripL (text.data.take 200)⟩ : String) with
    | none => true
    | some lang => lang == "en"

structure ScrapeResult where
  url : String
  text : String
  links : List LinkData
  success : Bool
  error : Option String
  signals : List (String × List String)
  soup : Option RawPage

/-- `IntelligentScraper.scrape_page`: fetch failure and language rejection
produce a failed result; otherwise the page's text, links and signals. -/
def scrape_page (env : Env) (url : String) : ScrapeResult :=
  match env.fetch url with
  | .error e => ⟨url, "", [], false, some e, [], none⟩
  | .ok pg =>
    if is_english env pg.text then
      ⟨url, pg.text, pg.links, true, none, pg.signals, some pg⟩
    else
      ⟨url, "", [], false, some "Non-English content", [], none⟩

/-- One key of the enterprise-signal merge: extend an existing key's match
list or append a new key (insertion-ordered dict). -/
def addSignal (acc : List (String × List String)) (k : String) (ms : List String) :
    List (String × List String) :=
  if acc.any (fun p => p.1 == k) then
    acc.map (fun p => if p.1 == k then (p.1, p.2 ++ ms) else p)
  else acc ++ [(k, ms)]

/-- Merge a page's enterprise signals into the crawl-wide map
(list concatenation per key). -/
def mergeSignals (acc pg : List (String × List String)) : List (String × List String) :=
  pg.foldl (fun a km => addSignal a km.1 km.2) acc

/-- `set.add` on the visited set modelled as an ordered duplicate-free list. -/
def insertSet (v : List String) (x : String) : List String :=
  if x ∈ v then v else v ++ [x]

structure PageRecord where
  url : String
  title : String
  text_length : Nat
deriving Repr, DecidableEq

structure CrawlResult where
  company_name : String
  base_url : String
  pages_scraped : List PageRecord
  total_text : String
  page_count : Nat
  enterprise_signals : List (String × List String)
  error : Option String

/-- A scored candidate `(score, link_url, link_text)`. -/
abbrev Scored := Int × String × String

/-- Python `xs[:n]` for an arbitrary integer `n`. -/
def pySlice {α : Type} (n : Int) (xs : List α) : List α :=
  if 0 ≤ n then xs.take n.toNat else xs.take (xs.length - n.natAbs)

/-- `scored_links.sort(reverse=True, key=lambda x: x[0])`: Python's
documented semantics is a stable sort, descending by key. -/
def pySortDesc (l : List Scored) : List Scored :=
  l.insertionSort (fun a b => b.1 ≤ a.1)

/-- The link-discovery loop (scored-candidate construction): skip
already-visited and invalid URLs, score the rest, keep positive scores.
A `ValueError` from `normalize_url` aborts the enclosing `try` block. -/
def buildScored (visited : List String) (base_domain : String) :
    List LinkData → Except String (List Scored)
  | [] => .ok []
  | l :: rest =>
    match normalize_url l.url with
    | none => .error "Invalid IPv6 URL"
    | some n =>
      if n ∈ visited then buildScored visited base_domain rest
      else if !is_valid_url l.url base_domain then buildScored visited base_domain rest
      else
        let sc := score_url_priority l.url l.text l.context
        match buildScored visited base_domain rest with
        | .error e => .error e
        | .ok t => .ok (if sc > 0 then (sc, l.url, l.text) :: t else t)

structure LoopState where
  visited : List String
  records : List PageRecord
  total_text : String
  count : Nat
  signals : List (String × List String)
  error : Option String
  fetched : List String
  iter : Nat

/-- The candidate-crawling loop.  Each iteration first checks the elapsed
time (`timedOut` at the current iteration index breaks out), re-checks the
visited set, fetches, and on success marks visited and appends the page
record, its corpus text, its signals and the page count.  A failed or
language-rejected candidate changes nothing but the ghost fetch log.
A `ValueError` from `normalize_url` aborts the `try` block, recorded in
`error` (the partial results are kept). -/
def crawlLoop (env : Env) : List Scored → LoopState → LoopState
  | [], s => s
  | (_, url, ltext) :: rest, s =>
    if env.timedOut s.iter then s
    else
      match normalize_url url with
      | none => { s with error := some "Invalid IPv6 URL" }
      | some n =>
        if n ∈ s.visited then crawlLoop env rest { s with iter := s.iter + 1 }
        else
          let page := scrape_page env url
          let s1 := { s with fetched := s.fetched ++ [url], iter := s.iter + 1 }
          if page.success then
            let title : String := if ltext = "" then "Page" else ⟨ltext.data.take 50⟩
            crawlLoop env rest
              { s1 with
                  visited := insertSet s1.visited n
                  signals := mergeSignals s1.signals page.signals
                  records := s1.records ++ [⟨url, title, page.text.data.length⟩]
                  total_text := s1.total_text ++ "\n\n=== " ++ title ++ " ===\n\n" ++ page.text
                  count := s1.count + 1 }
          else crawlLoop env rest s1

/-- Everything `crawl_website` leaves behind: the returned result dict, the
scraper's visited set, and the ghost log of URLs passed to `scrape_page`. -/
structure CrawlOut where
  result : CrawlResult
  visited : List String
  fetched : List String

/-- `start_url = 'https://' + start_url` unless it already starts with `http`
(`str.startswith`, expressed over the character list so that it evaluates by
kernel reduction). -/
def withScheme (s : String) : String :=
  if "http".data.isPrefixOf s.data then s else "https://" ++ s

/-- `IntelligentScraper.crawl_website`.  `visited0` is the instance's
visited set on entry (empty for a fresh scraper).  The top-level `none`
models the uncaught `ValueError` from `urlparse(start_url)` at the
`base_domain` computation, which sits outside the `try` block; inside the
block a `ValueError` is caught, recorded in `error`, and the partial
results (with the signals aggregated so far) are returned. -/
def crawl_website (env : Env) (visited0 : List String) (start_url0 : String)
    (max_pages : Int) : Option CrawlOut :=
  let start_url := withScheme start_url0
  match urlparseCore start_url.data with
  | none => none
  | some parsed =>
    let base_domain : String := ⟨parsed.netloc⟩
    let init : CrawlResult := ⟨"", start_url, [], "", 0, [], none⟩
    let homepage := scrape_page env start_url
    if !homepage.success then
      some ⟨{ init with
              error := some ("Failed to scrape: " ++ homepage.error.getD "None") },
            visited0, [start_url]⟩
    else
      let company := (homepage.soup.map RawPage.companyName).getD ""
      let all_signals := mergeSignals [] homepage.signals
      let n0 : String := ⟨normCore parsed⟩
      let visited1 := insertSet visited0 n0
      let records1 : List PageRecord := [⟨start_url, "Homepage", homepage.text.data.length⟩]
      let text1 := homepage.text ++ "\n\n"
      match buildScored visited1 base_domain homepage.links with
      | .error e =>
        some ⟨{ init with
                  company_name := company
                  pages_scraped := records1
                  total_text := text1
                  page_count := 1
                  enterprise_signals := all_signals
                  error := some e },
              visited1, [start_url]⟩
      | .ok scored =>
        let priority := pySlice (max_pages - 1) (pySortDesc scored)
        let st := crawlLoop env priority
          ⟨visited1, records1, text1, 1, all_signals, none, [start_url], 0⟩
        some ⟨⟨company, start_url, st.records, st.total_text, st.count,
               st.signals, st.error⟩, st.visited, st.fetched⟩



/-! ## Generic fold lemmas for the score components -/

theorem foldl_if_zero {α : Type} (p : α → Bool) (k : Int) :
    ∀ (l : List α), (∀ a ∈ l, p a = false) →
      ∀ i : Int, l.foldl (fun s a => if p a then s + k else s) i = i := by
  intro l
  induction l with
  | nil => intro _ i; rfl
  | cons a t ih =>
    intro h i
    have ha := h a (List.mem_cons_self a t)
    simp only [List.foldl_cons, ha, Bool.false_eq_true, if_false]
    exact ih (fun b hb => h b (List.mem_cons_of_mem a hb)) i

theorem foldl_if_congr {α : Type} (p q : α → Bool) (k : Int) :
    ∀ (l : List α), (∀ a ∈ l, p a = q a) →
      ∀ i : Int, l.foldl (fun s a => if p a then s + k else s) i
        = l.foldl (fun s a => if q a then s + k else s) i := by
  intro l
  induction l with
  | nil => intro _ _; rfl
  | cons a t ih =>
    intro h i
    have ha : p a = q a := h a (List.mem_cons_self a t)
    simp only [List.foldl_cons, ha]
    exact ih (fun b hb => h b (List.mem_cons_of_mem a hb)) _

/-! ## Claim C10 -/

/-- C10: `is_valid_url` is total over arbitrary input strings — it is a Lean
function into `Bool` — and an exception inside the `try` (the parse
`ValueError`, modelled by `urlparseCore _ = none`) yields `false`, not an
error. -/
theorem C10_parse_error_gives_false (url base : String)
    (h : urlparseCore url.data = none) : is_valid_url url base = false := by
  unfold is_valid_url
  rw [h]

/-- C10 witness: `"http://[x"` (mismatched bracket) raises inside `urlparse`
and is reported invalid. -/
theorem C10_witness :
    urlparseCore "http://[x".data = none ∧ is_valid_url "http://[x" "x" = false :=
  ⟨by decide, C10_parse_error_gives_false "http://[x" "x" (by decide)⟩

/-! ## Claim C4 -/

/-- C4 counterexample: `https://x.qq/z/z/z/z` is same-domain for base
`x.qq`, non-excluded, non-empty, and matches no keyword, phrase, context
keyword, or combination, yet `score_url_priority` returns −6 (six slashes,
penalty (6−3)·2) rather than the claimed 1: the floor applies only when the
score is exactly 0, and the depth penalty has already driven it negative. -/
theorem C4_cex :
    is_valid_url "https://x.qq/z/z/z/z" "x.qq" = true ∧
    (∀ k ∈ priority_keywords, isSub k (lowerL "https://x.qq/z/z/z/z".data) = false) ∧
    (∀ p ∈ priority_link_texts, isSub p (stripL (lowerL "".data)) = false) ∧
    (∀ pr ∈ high_value_combos,
      (isSub pr.1 (scoreCombined (lowerL "https://x.qq/z/z/z/z".data)
          (stripL (lowerL "".data)) (stripL (lowerL "".data))) &&
       isSub pr.2 (scoreCombined (lowerL "https://x.qq/z/z/z/z".data)
          (stripL (lowerL "".data)) (stripL (lowerL "".data)))) = false) ∧
    score_url_priority "https://x.qq/z/z/z/z" "" "" = -6 ∧
    ¬ score_url_priority "https://x.qq/z/z/z/z" "" "" = 1 := by
  refine ⟨by decide, by decide, by decide, by decide, by decide, by decide⟩

/-- C4 (amended): for a non-empty URL with zero keyword, phrase, context and
combination matches, `score_url_priority` returns exactly 1 when the URL
contains at most three `/` characters; a deeper URL receives the negative
depth penalty −2·(depth−3) instead.  In both cases the result is never 0. -/
theorem C4_amended (url text ctx : String)
    (hk : ∀ k ∈ priority_keywords, isSub k (lowerL url.data) = false)
    (ht : ∀ p ∈ priority_link_texts, isSub p (stripL (lowerL text.data)) = false)
    (hc : ∀ k ∈ priority_keywords, isSub k (stripL (lowerL ctx.data)) = false)
    (hm : ∀ pr ∈ high_value_combos,
      (isSub pr.1 (scoreCombined (lowerL url.data) (stripL (lowerL text.data))
          (stripL (lowerL ctx.data))) &&
       isSub pr.2 (scoreCombined (lowerL url.data) (stripL (lowerL text.data))
          (stripL (lowerL ctx.data)))) = false)
    (hne : url ≠ "") :
    (countCh '/' (lowerL url.data) ≤ 3 → score_url_priority url text ctx = 1) ∧
    (3 < countCh '/' (lowerL url.data) →
      score_url_priority url text ctx
        = -(((countCh '/' (lowerL url.data) : Int) - 3) * 2)) ∧
    score_url_priority url text ctx ≠ 0 := by
  have hd0 : url.data ≠ [] := by
    intro h
    exact hne (String.ext h)
  have hlen : decide (0 < (lowerL url.data).length) = true := by
    have hp : 0 < (lowerL url.data).length := by
      rw [lowerL, List.length_map]
      exact List.length_pos.mpr hd0
    simp [hp]
  have key : score_url_priority url text ctx =
      if 3 < countCh '/' (lowerL url.data)
      then -(((countCh '/' (lowerL url.data) : Int) - 3) * 2)
      else 1 := by
    simp only [score_url_priority]
    rw [foldl_if_zero _ 10 priority_keywords hk 0]
    have hta : priority_link_texts.any (fun p => isSub p (stripL (lowerL text.data))) = false := by
      simp only [List.any_eq_false]
      intro x hx
      simp [ht x hx]
    have hca : priority_keywords.any (fun k => isSub k (stripL (lowerL ctx.data))) = false := by
      simp only [List.any_eq_false]
      intro x hx
      simp [hc x hx]
    rw [hta, hca]
    simp only [Bool.false_eq_true, if_false]
    rw [foldl_if_zero _ 25 high_value_combos hm _]
    by_cases hgt : 3 < countCh '/' (lowerL url.data)
    · rw [if_pos hgt, if_pos hgt]
      have hb : ((0 - ((countCh '/' (lowerL url.data) : Int) - 3) * 2 == 0) : Bool) = false := by
        rw [beq_eq_false_iff_ne]
        omega
      rw [hb]
      simp only [Bool.false_and, Bool.false_eq_true, if_false]
      omega
    · rw [if_neg hgt, if_neg hgt]
      simp [hlen]
  refine ⟨?_, ?_, ?_⟩
  · intro hle
    rw [key, if_neg (by omega)]
  · intro hgt
    rw [key, if_pos hgt]
  · rw [key]
    by_cases hgt : 3 < countCh '/' (lowerL url.data)
    · rw [if_pos hgt]
      omega
    · rw [if_neg hgt]
      omega

/-- C4 witness: `https://x.qq/z` (three slashes, no matches) scores exactly 1. -/
theorem C4_witness :
    ((∀ k ∈ priority_keywords, isSub k (lowerL "https://x.qq/z".data) = false) ∧
     (∀ p ∈ priority_link_texts, isSub p (stripL (lowerL "".data)) = false) ∧
     "https://x.qq/z" ≠ "") ∧
    ((countCh '/' (lowerL "https://x.qq/z".data) ≤ 3 →
        score_url_priority "https://x.qq/z" "" "" = 1) ∧
     (3 < countCh '/' (lowerL "https://x.qq/z".data) →
        score_url_priority "https://x.qq/z" "" ""
          = -(((countCh '/' (lowerL "https://x.qq/z".data) : Int) - 3) * 2)) ∧
     score_url_priority "https://x.qq/z" "" "" ≠ 0) :=
  ⟨⟨by decide, by decide, by decide⟩,
   C4_amended "https://x.qq/z" "" "" (by decide) (by decide) (by decide) (by decide) (by decide)⟩

/-! ## Claim C5 -/

/-- C5 counterexample: going from `https://e.co/about` to
`https://e.co/aboutabout` adds one more occurrence of the keyword `about`
to the URL path, holding link text and context fixed, yet the score stays
at 10 instead of rising by 10: the URL term pays per *distinct* keyword
present (substring membership), not per occurrence. -/
theorem C5_cex :
    subCount "about".toList (lowerL "https://e.co/about".data) = 1 ∧
    subCount "about".toList (lowerL "https://e.co/aboutabout".data) = 2 ∧
    score_url_priority "https://e.co/about" "" "" = 10 ∧
    score_url_priority "https://e.co/aboutabout" "" "" = 10 ∧
    ¬ score_url_priority "https://e.co/aboutabout" "" ""
        = score_url_priority "https://e.co/about" "" "" + 10 := by
  refine ⟨by decide, by decide, by decide, by decide, by decide⟩

/-- C5 (amended): the URL-keyword term contributes 10 points per *distinct*
keyword present as a substring, counted once however many occurrences there
are: two URLs with the same keyword memberships, the same `/` count, the
same combination-pair memberships and the same (non-)emptiness receive
identical scores for fixed link text and context. -/
theorem C5_amended (u1 u2 text ctx : String)
    (hk : ∀ k ∈ priority_keywords, isSub k (lowerL u1.data) = isSub k (lowerL u2.data))
    (hd : countCh '/' (lowerL u1.data) = countCh '/' (lowerL u2.data))
    (hm : ∀ pr ∈ high_value_combos,
      (isSub pr.1 (scoreCombined (lowerL u1.data) (stripL (lowerL text.data))
          (stripL (lowerL ctx.data))) &&
       isSub pr.2 (scoreCombined (lowerL u1.data) (stripL (lowerL text.data))
          (stripL (lowerL ctx.data))))
      = (isSub pr.1 (scoreCombined (lowerL u2.data) (stripL (lowerL text.data))
          (stripL (lowerL ctx.data))) &&
         isSub pr.2 (scoreCombined (lowerL u2.data) (stripL (lowerL text.data))
          (stripL (lowerL ctx.data)))))
    (he : u1.data = [] ↔ u2.data = []) :
    score_url_priority u1 text ctx = score_url_priority u2 text ctx := by
  have hlen : decide (0 < (lowerL u1.data).length) = decide (0 < (lowerL u2.data).length) := by
    apply decide_eq_decide.mpr
    rw [lowerL, lowerL, List.length_map, List.length_map, List.length_pos, List.length_pos]
    exact not_congr he
  simp only [score_url_priority]
  rw [foldl_if_congr _ _ 10 priority_keywords hk 0]
  rw [hd]
  rw [foldl_if_congr _ _ 25 high_value_combos hm]
  rw [hlen]

/-- C5 witness: the amended congruence applied to the counterexample pair
(equal memberships, both scoring 10). -/
theorem C5_witness :
    ((∀ k ∈ priority_keywords,
        isSub k (lowerL "https://e.co/about".data)
          = isSub k (lowerL "https://e.co/aboutabout".data)) ∧
     countCh '/' (lowerL "https://e.co/about".data)
        = countCh '/' (lowerL "https://e.co/aboutabout".data)) ∧
    score_url_priority "https://e.co/about" "" ""
      = score_url_priority "https://e.co/aboutabout" "" "" :=
  ⟨⟨by decide, by decide⟩,
   C5_amended "https://e.co/about" "https://e.co/aboutabout" "" ""
     (by decide) (by decide) (by decide) (by decide)⟩


/-! ## Claim C8 -/

/-- Authentication-endpoint substrings (spec categorisation, source order). -/
def auth_patterns : List (List Char) :=
  ["login", "signin", "sign-in", "signup", "sign-up", "register"].map String.toList

/-- Commerce/account-endpoint substrings. -/
def commerce_patterns : List (List Char) :=
  ["cart", "checkout", "payment", "account", "profile"].map String.toList

/-- Search/filter/sort utility substrings. -/
def query_ui_patterns : List (List Char) :=
  ["search", "filter", "sort"].map String.toList

/-- Legal/policy-endpoint substrings. -/
def legal_patterns : List (List Char) :=
  ["privacy", "terms", "cookie", "legal", "disclaimer"].map String.toList

/-- CMS administrative-path substrings. -/
def cms_patterns : List (List Char) :=
  ["wp-admin", "wp-content", "wp-includes"].map String.toList

/-- Feed-endpoint substrings. -/
def feed_patterns : List (List Char) :=
  ["feed", "rss", "atom"].map String.toList

/-- Non-navigational scheme substrings. -/
def scheme_patterns : List (List Char) :=
  ["javascript:", "mailto:", "tel:"].map String.toList

/-- The validator as the spec describes it, amended on the fragment rule:
reject cross-domain URLs, non-HTML extensions of the parsed path, the
categorised authentication/commerce/search/legal/CMS/feed substrings
anywhere in the lowercased URL, any URL containing `#` anywhere (not only
pure-fragment links), and the non-navigational schemes; a parse failure is
invalid.  Written independently of `is_valid_url`\'s if-cascade for the
refinement comparison. -/
def isValidCandidateSpec (url : String) (base_domain : String) : Bool :=
  match urlparseCore url.data with
  | none => false
  | some p =>
    isSub base_domain.data p.netloc
    && !(skip_extensions.any (fun e => e.isSuffixOf (lowerL p.path)))
    && !((auth_patterns ++ commerce_patterns ++ query_ui_patterns ++ legal_patterns
          ++ cms_patterns ++ feed_patterns).any (fun pat => isSub pat (lowerL url.data)))
    && !(isSub "#".toList (lowerL url.data))
    && !(scheme_patterns.any (fun pat => isSub pat (lowerL url.data)))

/-- C8 counterexample: `https://example.com/page#top` is same-domain with a
clean path and a non-empty fragment and matches no other rejection rule,
yet `is_valid_url` rejects it (the pattern `"#"` matches anywhere in the
URL, not only pure-fragment links); the same URL without the fragment is
accepted. -/
theorem C8_cex :
    is_valid_url "https://example.com/page#top" "example.com" = false ∧
    is_valid_url "https://example.com/page" "example.com" = true ∧
    urlparseCore "https://example.com/page#top".data
      = some ⟨"https".toList, "example.com".toList, "/page".toList, [], [], "top".toList⟩ := by
  refine ⟨by decide, by decide, by decide⟩

/-- C8 (amended): `is_valid_url` accepts exactly the same-domain URLs that
avoid the fixed non-HTML extensions, the fixed authentication, commerce,
search, legal, CMS-administrative and feed substrings, the non-navigational
schemes, and any occurrence of `#` (every fragment-carrying URL is
rejected, not only pure-fragment links). -/
theorem C8_amended (url base_domain : String) :
    is_valid_url url base_domain = isValidCandidateSpec url base_domain := by
  have hsplit : skip_patterns
      = auth_patterns ++ commerce_patterns ++ query_ui_patterns ++ legal_patterns
        ++ cms_patterns ++ feed_patterns ++ ("#".toList :: scheme_patterns) := by decide
  have hany : skip_patterns.any (fun pat => isSub pat (lowerL url.data))
      = ((auth_patterns ++ commerce_patterns ++ query_ui_patterns ++ legal_patterns
          ++ cms_patterns ++ feed_patterns).any (fun pat => isSub pat (lowerL url.data))
         || (isSub "#".toList (lowerL url.data)
         || scheme_patterns.any (fun pat => isSub pat (lowerL url.data)))) := by
    rw [hsplit]
    simp [List.any_append, List.any_cons, Bool.or_assoc]
  unfold is_valid_url isValidCandidateSpec
  cases hp : urlparseCore url.data with
  | none => rfl
  | some p =>
    dsimp only
    rw [hany]
    cases hA : isSub base_domain.data p.netloc <;>
      cases hB : skip_extensions.any (fun e => e.isSuffixOf (lowerL p.path)) <;>
        cases hC : (auth_patterns ++ commerce_patterns ++ query_ui_patterns ++ legal_patterns
            ++ cms_patterns ++ feed_patterns).any (fun pat => isSub pat (lowerL url.data)) <;>
          cases hD : isSub "#".toList (lowerL url.data) <;>
            cases hE : scheme_patterns.any (fun pat => isSub pat (lowerL url.data)) <;>
              rfl


/-! ## Crawl-loop invariant lemmas -/

theorem insertSet_nodup (v : List String) (x : String) (h : v.Nodup) :
    (insertSet v x).Nodup := by
  unfold insertSet
  split
  · exact h
  · next hx => simp [List.nodup_append, h, hx]

theorem mem_insertSet_self (v : List String) (x : String) : x ∈ insertSet v x := by
  unfold insertSet
  split
  · assumption
  · simp

theorem mem_insertSet_of_mem (v : List String) (x y : String) (h : y ∈ v) :
    y ∈ insertSet v x := by
  unfold insertSet
  split
  · exact h
  · simp [h]

theorem crawlLoop_count_le (env : Env) :
    ∀ (cs : List Scored) (s : LoopState),
      (crawlLoop env cs s).count ≤ s.count + cs.length := by
  intro cs
  induction cs with
  | nil =>
    intro s
    simp [crawlLoop]
  | cons c rest ih =>
    intro s
    obtain ⟨sc, url, ltext⟩ := c
    rw [crawlLoop]
    by_cases hT : env.timedOut s.iter
    · simp [hT]
    · simp only [hT, Bool.false_eq_true, if_false]
      cases hn : normalize_url url with
      | none => simp
      | some n =>
        dsimp only
        by_cases hv : n ∈ s.visited
        · simp only [hv, if_true]
          have := ih { s with iter := s.iter + 1 }
          simp only [List.length_cons] at *
          omega
        · simp only [hv, if_false]
          by_cases hS : (scrape_page env url).success
          · simp only [hS, if_true]
            have := ih { s with
              visited := insertSet (s.visited ++ [url]) n
              records := s.records
              count := s.count + 1 }
            simp only [List.length_cons] at *
            refine le_trans (ih _) ?_
            simp only [List.length_cons]
            omega
          · simp only [hS, Bool.false_eq_true, if_false]
            refine le_trans (ih _) ?_
            simp only [List.length_cons]
            omega

theorem crawlLoop_count_records (env : Env) :
    ∀ (cs : List Scored) (s : LoopState), s.count = s.records.length →
      (crawlLoop env cs s).count = (crawlLoop env cs s).records.length := by
  intro cs
  induction cs with
  | nil =>
    intro s h
    simpa [crawlLoop] using h
  | cons c rest ih =>
    intro s h
    obtain ⟨sc, url, ltext⟩ := c
    rw [crawlLoop]
    by_cases hT : env.timedOut s.iter
    · simpa [hT] using h
    · simp only [hT, Bool.false_eq_true, if_false]
      cases hn : normalize_url url with
      | none => simpa using h
      | some n =>
        dsimp only
        by_cases hv : n ∈ s.visited
        · simp only [hv, if_true]
          exact ih _ h
        · simp only [hv, if_false]
          by_cases hS : (scrape_page env url).success
          · simp only [hS, if_true]
            refine ih _ ?_
            simp [h]
          · simp only [hS, Bool.false_eq_true, if_false]
            exact ih _ h

theorem crawlLoop_fetched (env : Env) :
    ∀ (cs : List Scored) (s : LoopState),
      ∃ ex, (crawlLoop env cs s).fetched = s.fetched ++ ex
        ∧ ex.Sublist (cs.map (fun c => c.2.1)) := by
  intro cs
  induction cs with
  | nil =>
    intro s
    exact ⟨[], by simp [crawlLoop], by simp⟩
  | cons c rest ih =>
    intro s
    obtain ⟨sc, url, ltext⟩ := c
    rw [crawlLoop]
    by_cases hT : env.timedOut s.iter
    · exact ⟨[], by simp [hT], by simp⟩
    · simp only [hT, Bool.false_eq_true, if_false]
      cases hn : normalize_url url with
      | none => exact ⟨[], by simp, by simp⟩
      | some n =>
        dsimp only
        by_cases hv : n ∈ s.visited
        · simp only [hv, if_true]
          obtain ⟨ex, he, hs⟩ := ih { s with iter := s.iter + 1 }
          exact ⟨ex, he, hs.cons _⟩
        · simp only [hv, if_false]
          by_cases hS : (scrape_page env url).success
          · simp only [hS, if_true]
            obtain ⟨ex, he, hs⟩ := ih _
            refine ⟨url :: ex, ?_, hs.cons₂ _⟩
            rw [he]
            simp
          · simp only [hS, Bool.false_eq_true, if_false]
            obtain ⟨ex, he, hs⟩ := ih _
            refine ⟨url :: ex, ?_, hs.cons₂ _⟩
            rw [he]
            simp

/-- The no-duplicate-visits invariant carried through the candidate loop. -/
def VisitInv (s : LoopState) : Prop :=
  s.visited.Nodup ∧
  (s.records.map (fun r => normalize_url r.url)).Nodup ∧
  ∀ r ∈ s.records, ∃ n, normalize_url r.url = some n ∧ n ∈ s.visited

theorem crawlLoop_visitInv (env : Env) :
    ∀ (cs : List Scored) (s : LoopState), VisitInv s → VisitInv (crawlLoop env cs s) := by
  intro cs
  induction cs with
  | nil =>
    intro s h
    simpa [crawlLoop] using h
  | cons c rest ih =>
    intro s h
    obtain ⟨sc, url, ltext⟩ := c
    rw [crawlLoop]
    by_cases hT : env.timedOut s.iter
    · simpa [hT] using h
    · simp only [hT, Bool.false_eq_true, if_false]
      cases hn : normalize_url url with
      | none => simpa using h
      | some n =>
        dsimp only
        by_cases hv : n ∈ s.visited
        · simp only [hv, if_true]
          refine ih _ ?_
          exact ⟨h.1, h.2.1, fun r hr => h.2.2 r hr⟩
        · simp only [hv, if_false]
          by_cases hS : (scrape_page env url).success
          · simp only [hS, if_true]
            refine ih _ ?_
            obtain ⟨h1, h2, h3⟩ := h
            refine ⟨?_, ?_, ?_⟩
            · exact insertSet_nodup _ _ h1
            · simp only [List.map_append, List.map_cons, List.map_nil]
              rw [List.nodup_append]
              refine ⟨h2, List.nodup_singleton _, ?_⟩
              intro a ha hb
              simp only [List.mem_singleton] at hb
              subst hb
              simp only [List.mem_map] at ha
              obtain ⟨r, hr, hrn⟩ := ha
              obtain ⟨m, hm, hmv⟩ := h3 r hr
              rw [hm] at hrn
              rw [hn] at hrn
              have : m = n := Option.some.inj hrn
              exact hv (this ▸ hmv)
            · intro r hr
              rcases List.mem_append.mp hr with hold | hnew
              · obtain ⟨m, hm, hmv⟩ := h3 r hold
                exact ⟨m, hm, mem_insertSet_of_mem _ _ _ hmv⟩
              · simp only [List.mem_singleton] at hnew
                subst hnew
                exact ⟨n, hn, mem_insertSet_self _ _⟩
          · simp only [hS, Bool.false_eq_true, if_false]
            refine ih _ ?_
            exact ⟨h.1, h.2.1, fun r hr => h.2.2 r hr⟩


theorem pySlice_length_le {α : Type} (n : Int) (xs : List α) (hn : 0 ≤ n) :
    (pySlice n xs).length ≤ n.toNat := by
  unfold pySlice
  rw [if_pos hn]
  simp [List.length_take]

/-! ## Concrete environments used by counterexamples and witnesses -/

/-- Fetch oracle that fails every request with a 404-style message. -/
def envFail : Env := ⟨fun _ => .error "404 Client Error", fun _ => none, fun _ => false⟩

/-- A discovered link with empty anchor text and context. -/
def mkLink (u : String) : LinkData := ⟨u, "", ""⟩

/-- Scenario-D homepage: ten valid same-domain candidates in document order;
`/about-us` scores 20, `/services` and `/team` score 10 (tie, document
order), the rest score the floor 1. -/
def homeD : RawPage :=
  ⟨"h", [mkLink "https://d.io/a", mkLink "https://d.io/b", mkLink "https://d.io/services",
         mkLink "https://d.io/c", mkLink "https://d.io/about-us", mkLink "https://d.io/team",
         mkLink "https://d.io/e", mkLink "https://d.io/f", mkLink "https://d.io/g",
         mkLink "https://d.io/h"], "D", []⟩

/-- Scenario-D environment: every fetch succeeds; subpages carry no links. -/
def envD : Env :=
  ⟨fun u => if u = "https://d.io" then .ok homeD else .ok ⟨"x", [], "D", []⟩,
   fun _ => none, fun _ => false⟩

/-! ## Claim C2 -/

/-- C2: if the homepage fetch fails (transport error or non-2xx reply such as
HTTP 404) or the homepage text is rejected by the language filter,
`crawl_website` returns immediately with an error field, `page_count = 0`
and an empty page-record list, and no URL beyond the homepage is ever
fetched. -/
theorem C2_homepage_fatal (env : Env) (v0 : List String) (seed : String)
    (mp : Int) (out : CrawlOut)
    (hrun : crawl_website env v0 seed mp = some out)
    (hfail : (∃ e, env.fetch (withScheme seed) = .error e) ∨
             (∃ pg, env.fetch (withScheme seed) = .ok pg ∧ is_english env pg.text = false)) :
    out.result.error.isSome = true ∧ out.result.page_count = 0 ∧
    out.result.pages_scraped = [] ∧ out.fetched = [withScheme seed] := by
  have hs : (scrape_page env (withScheme seed)).success = false := by
    unfold scrape_page
    rcases hfail with ⟨e, he⟩ | ⟨pg, hpg, hen⟩
    · rw [he]
    · rw [hpg]
      simp [hen]
  simp only [crawl_website] at hrun
  cases hp : urlparseCore (withScheme seed).data with
  | none =>
    rw [hp] at hrun
    simp at hrun
  | some parsed =>
    rw [hp] at hrun
    dsimp only at hrun
    rw [hs] at hrun
    simp only [Bool.not_false, if_true] at hrun
    have hout := Option.some.inj hrun
    subst hout
    exact ⟨rfl, rfl, rfl, rfl⟩

/-- C2 witness: a 404 homepage on the fresh scraper. -/
theorem C2_witness :
    (crawl_website envFail [] "example.com" 10
        = some ((crawl_website envFail [] "example.com" 10).get (by decide)) ∧
      (∃ e, envFail.fetch (withScheme "example.com") = .error e)) ∧
    (((crawl_website envFail [] "example.com" 10).get
        (by decide)).result.error.isSome = true ∧
      ((crawl_website envFail [] "example.com" 10).get
        (by decide)).result.page_count = 0 ∧
      ((crawl_website envFail [] "example.com" 10).get
        (by decide)).result.pages_scraped = [] ∧
      ((crawl_website envFail [] "example.com" 10).get
        (by decide)).fetched = [withScheme "example.com"]) :=
  ⟨⟨(Option.some_get (by decide)).symm, ⟨"404 Client Error", rfl⟩⟩,
   C2_homepage_fatal envFail [] "example.com" 10 _ (Option.some_get (by decide)).symm
     (Or.inl ⟨"404 Client Error", rfl⟩)⟩

/-! ## Claim C7 -/

/-- C7: when a non-homepage candidate (not yet visited, not timed out)
fails to fetch or is rejected as non-English, the loop state is unchanged
except for the ghost fetch log and the iteration counter — nothing is
added to the visited set, no page record is appended, `page_count` and the
corpus and the signal map stay as they were — and the crawl continues with
the remaining candidates instead of aborting. -/
theorem C7_failed_candidate_skipped (env : Env) (sc : Int) (url ltext : String)
    (rest : List Scored) (s : LoopState) (n : String)
    (hT : env.timedOut s.iter = false)
    (hn : normalize_url url = some n)
    (hv : n ∉ s.visited)
    (hf : (scrape_page env url).success = false) :
    crawlLoop env ((sc, url, ltext) :: rest) s
      = crawlLoop env rest
          { s with
              fetched := s.fetched ++ [url]
              iter := s.iter + 1 } := by
  rw [crawlLoop]
  rw [hT]
  simp only [Bool.false_eq_true, if_false]
  rw [hn]
  dsimp only
  rw [if_neg hv]
  rw [hf]
  simp only [Bool.false_eq_true, if_false]

/-- C7 witness: a concrete skipped candidate between two states. -/
theorem C7_witness :
    (envFail.timedOut 0 = false ∧
      normalize_url "https://e.co/a" = some "https://e.co/a" ∧
      "https://e.co/a" ∉ (["https://e.co"] : List String) ∧
      (scrape_page envFail "https://e.co/a").success = false) ∧
    crawlLoop envFail [(1, "https://e.co/a", "A")]
        ⟨["https://e.co"], [⟨"https://e.co", "Homepage", 0⟩], "", 1, [], none, ["https://e.co"], 0⟩
      = crawlLoop envFail []
          ⟨["https://e.co"], [⟨"https://e.co", "Homepage", 0⟩], "", 1, [], none,
           ["https://e.co", "https://e.co/a"], 1⟩ :=
  ⟨⟨by decide, by decide, by decide, by decide⟩, by
    have := C7_failed_candidate_skipped envFail 1 "https://e.co/a" "A" []
      ⟨["https://e.co"], [⟨"https://e.co", "Homepage", 0⟩], "", 1, [], none, ["https://e.co"], 0⟩
      "https://e.co/a" (by decide) (by decide) (by decide) (by decide)
    simpa using this⟩

/-! ## Claim C1 -/

/-- A fetch oracle whose every page succeeds with empty text and no links. -/
def envTrivial : Env := ⟨fun _ => .ok ⟨"", [], "Example", []⟩, fun _ => none, fun _ => false⟩

/-- C1 counterexample: with `max_pages = 0` and a reachable homepage the
crawl still records the homepage, so `page_count = 1 > 0 = max_pages`; the
budget bound fails for a configured `max_pages` of 0. -/
theorem C1_cex :
    (crawl_website envTrivial [] "example.com" 0).map (fun o => o.result.page_count)
      = some 1 ∧
    ¬ (1 : Int) ≤ 0 :=
  ⟨by decide, by decide⟩

/-- C1 (amended): for every run that returns, `page_count` equals the number
of entries of the page-record list; and whenever `max_pages ≥ 1` the
returned `page_count` is at most `max_pages`.  (For `max_pages = 0` the
bound fails — the homepage alone yields `page_count = 1`.) -/
theorem C1_amended (env : Env) (v0 : List String) (seed : String) (mp : Int)
    (out : CrawlOut) (hrun : crawl_website env v0 seed mp = some out) :
    out.result.page_count = out.result.pages_scraped.length ∧
    (1 ≤ mp → (out.result.page_count : Int) ≤ mp) := by
  simp only [crawl_website] at hrun
  cases hp : urlparseCore (withScheme seed).data with
  | none =>
    rw [hp] at hrun
    simp at hrun
  | some parsed =>
    rw [hp] at hrun
    dsimp only at hrun
    by_cases hs : (scrape_page env (withScheme seed)).success
    · rw [hs] at hrun
      simp only [Bool.not_true, Bool.false_eq_true, if_false] at hrun
      cases hb : buildScored (insertSet v0 ⟨normCore parsed⟩) ⟨parsed.netloc⟩
          (scrape_page env (withScheme seed)).links with
      | error e =>
        rw [hb] at hrun
        dsimp only at hrun
        have hout := Option.some.inj hrun
        subst hout
        refine ⟨rfl, fun h1 => ?_⟩
        simpa using h1
      | ok scored =>
        rw [hb] at hrun
        dsimp only at hrun
        have hout := Option.some.inj hrun
        subst hout
        constructor
        · exact crawlLoop_count_records env _ _ rfl
        · intro h1
          have hle := crawlLoop_count_le env
            (pySlice (mp - 1) (pySortDesc scored))
            ⟨insertSet v0 ⟨normCore parsed⟩,
             [⟨withScheme seed, "Homepage", (scrape_page env (withScheme seed)).text.data.length⟩],
             (scrape_page env (withScheme seed)).text ++ "\n\n", 1,
             mergeSignals [] (scrape_page env (withScheme seed)).signals, none,
             [withScheme seed], 0⟩
          have hlen := pySlice_length_le (mp - 1) (pySortDesc scored) (by omega)
          dsimp only at hle ⊢
          omega
    · rw [eq_false_of_ne_true hs] at hrun
      simp only [Bool.not_false, if_true] at hrun
      have hout := Option.some.inj hrun
      subst hout
      refine ⟨rfl, fun h1 => ?_⟩
      simp
      omega

/-- C1 witness: a one-page crawl within a budget of 10. -/
theorem C1_witness :
    crawl_website envTrivial [] "example.com" 10
        = some ((crawl_website envTrivial [] "example.com" 10).get (by decide)) ∧
    (((crawl_website envTrivial [] "example.com" 10).get (by decide)).result.page_count
        = ((crawl_website envTrivial [] "example.com" 10).get
            (by decide)).result.pages_scraped.length ∧
      (1 ≤ (10 : Int) →
        (((crawl_website envTrivial [] "example.com" 10).get
            (by decide)).result.page_count : Int) ≤ 10)) :=
  ⟨(Option.some_get (by decide)).symm,
   C1_amended envTrivial [] "example.com" 10 _ (Option.some_get (by decide)).symm⟩

/-! ## Claim C3 -/

/-- C3: within one invocation of `crawl_website` (starting from any
duplicate-free visited set, in particular the fresh scraper\'s empty one),
no normalized URL appears more than once in the visited set, and no
normalized URL appears more than once among the page records. -/
theorem C3_no_duplicate_visits (env : Env) (v0 : List String) (seed : String)
    (mp : Int) (out : CrawlOut) (h0 : v0.Nodup)
    (hrun : crawl_website env v0 seed mp = some out) :
    out.visited.Nodup ∧
    (out.result.pages_scraped.map (fun r => normalize_url r.url)).Nodup := by
  simp only [crawl_website] at hrun
  cases hp : urlparseCore (withScheme seed).data with
  | none =>
    rw [hp] at hrun
    simp at hrun
  | some parsed =>
    rw [hp] at hrun
    dsimp only at hrun
    by_cases hs : (scrape_page env (withScheme seed)).success
    · rw [hs] at hrun
      simp only [Bool.not_true, Bool.false_eq_true, if_false] at hrun
      have hnorm : normalize_url (withScheme seed) = some ⟨normCore parsed⟩ := by
        unfold normalize_url
        rw [hp]
        rfl
      cases hb : buildScored (insertSet v0 ⟨normCore parsed⟩) ⟨parsed.netloc⟩
          (scrape_page env (withScheme seed)).links with
      | error e =>
        rw [hb] at hrun
        dsimp only at hrun
        have hout := Option.some.inj hrun
        subst hout
        exact ⟨insertSet_nodup _ _ h0, by simp⟩
      | ok scored =>
        rw [hb] at hrun
        dsimp only at hrun
        have hout := Option.some.inj hrun
        subst hout
        have hinv := crawlLoop_visitInv env
          (pySlice (mp - 1) (pySortDesc scored))
          ⟨insertSet v0 ⟨normCore parsed⟩,
           [⟨withScheme seed, "Homepage", (scrape_page env (withScheme seed)).text.data.length⟩],
           (scrape_page env (withScheme seed)).text ++ "\n\n", 1,
           mergeSignals [] (scrape_page env (withScheme seed)).signals, none,
           [withScheme seed], 0⟩
          ⟨insertSet_nodup _ _ h0, by simp,
           fun r hr => by
             simp only [List.mem_singleton] at hr
             subst hr
             exact ⟨⟨normCore parsed⟩, hnorm, mem_insertSet_self _ _⟩⟩
        exact ⟨hinv.1, hinv.2.1⟩
    · rw [eq_false_of_ne_true hs] at hrun
      simp only [Bool.not_false, if_true] at hrun
      have hout := Option.some.inj hrun
      subst hout
      exact ⟨h0, by simp⟩

/-- C3 witness: the scenario-D crawl has duplicate-free visited set and
page records. -/
theorem C3_witness :
    (([] : List String).Nodup ∧
      crawl_website envD [] "d.io" 3
        = some ((crawl_website envD [] "d.io" 3).get (by decide))) ∧
    (((crawl_website envD [] "d.io" 3).get (by decide)).visited.Nodup ∧
      (((crawl_website envD [] "d.io" 3).get
          (by decide)).result.pages_scraped.map (fun r => normalize_url r.url)).Nodup) :=
  ⟨⟨List.nodup_nil, (Option.some_get (by decide)).symm⟩,
   C3_no_duplicate_visits envD [] "d.io" 3 _ List.nodup_nil
     (Option.some_get (by decide)).symm⟩


/-! ## Claim C6: stable descending sort and candidate selection -/

theorem filter_orderedInsert (x : Scored) (c : Int) :
    ∀ l : List Scored,
      (List.orderedInsert (fun a b => b.1 ≤ a.1) x l).filter (fun z => decide (z.1 = c))
        = if x.1 = c then x :: l.filter (fun z => decide (z.1 = c))
          else l.filter (fun z => decide (z.1 = c)) := by
  intro l
  induction l with
  | nil =>
    by_cases hx : x.1 = c <;> simp [List.orderedInsert, List.filter_cons, hx]
  | cons y t ih =>
    rw [List.orderedInsert]
    by_cases hr : y.1 ≤ x.1
    · rw [if_pos hr]
      by_cases hx : x.1 = c <;> simp [List.filter_cons, hx]
    · rw [if_neg hr]
      have hyx : x.1 < y.1 := not_le.mp hr
      by_cases hx : x.1 = c
      · have hy : ¬ y.1 = c := by omega
        simp [List.filter_cons, hx, hy, ih]
      · simp only [List.filter_cons, ih, if_neg hx]

theorem filter_pySortDesc (c : Int) :
    ∀ l : List Scored,
      (pySortDesc l).filter (fun z => decide (z.1 = c))
        = l.filter (fun z => decide (z.1 = c)) := by
  intro l
  induction l with
  | nil => rfl
  | cons a t ih =>
    unfold pySortDesc at ih ⊢
    rw [List.insertionSort, filter_orderedInsert]
    by_cases ha : a.1 = c <;> simp [List.filter_cons, ha, ih]

/-- C6: the candidate ranking is a stable descending sort — the output of
`pySortDesc` is sorted by score descending, and for every score value the
candidates carrying it appear in their original document order — the loop
fetches candidates in ranked order (its fetch log extends by an in-order
sublist of the candidate URLs), a returning run fetches at most `max_pages`
URLs in total (the homepage plus at most `max_pages − 1` candidates) when
`max_pages ≥ 1`, and in the concrete Scenario D (ten valid candidates,
`max_pages = 3`) exactly the two highest-scoring candidates — the 10-point
tie between `/services` and `/team` broken by document order — are fetched
after the homepage. -/
theorem C6_ranking_and_selection :
    (∀ l : List Scored, List.Sorted (fun a b => b.1 ≤ a.1) (pySortDesc l)) ∧
    (∀ (l : List Scored) (c : Int),
      (pySortDesc l).filter (fun z => decide (z.1 = c))
        = l.filter (fun z => decide (z.1 = c))) ∧
    (∀ (env : Env) (cs : List Scored) (s : LoopState),
      ∃ ex, (crawlLoop env cs s).fetched = s.fetched ++ ex
        ∧ ex.Sublist (cs.map (fun x => x.2.1))) ∧
    (∀ (env : Env) (v0 : List String) (seed : String) (mp : Int) (out : CrawlOut),
      1 ≤ mp → crawl_website env v0 seed mp = some out →
        (out.fetched.length : Int) ≤ mp) ∧
    (((buildScored ["https://d.io"] "d.io" homeD.links).toOption.map
        (fun l => (pySortDesc l).map (fun x => (x.1, x.2.1)))) =
      some [(20, "https://d.io/about-us"), (10, "https://d.io/services"),
            (10, "https://d.io/team"), (1, "https://d.io/a"), (1, "https://d.io/b"),
            (1, "https://d.io/c"), (1, "https://d.io/e"), (1, "https://d.io/f"),
            (1, "https://d.io/g"), (1, "https://d.io/h")]) ∧
    ((crawl_website envD [] "d.io" 3).map
        (fun o => (o.result.pages_scraped.map PageRecord.url, o.fetched)) =
      some (["https://d.io", "https://d.io/about-us", "https://d.io/services"],
            ["https://d.io", "https://d.io/about-us", "https://d.io/services"])) := by
  refine ⟨?_, fun l c => filter_pySortDesc c l, ?_, ?_, by decide, by decide⟩
  · intro l
    exact @List.sorted_insertionSort Scored (fun a b => b.1 ≤ a.1) _
      ⟨fun a b => le_total b.1 a.1⟩ ⟨fun a b c h1 h2 => le_trans h2 h1⟩ l
  · intro env cs s
    exact crawlLoop_fetched env cs s
  · intro env v0 seed mp out h1 hrun
    simp only [crawl_website] at hrun
    cases hp : urlparseCore (withScheme seed).data with
    | none =>
      rw [hp] at hrun
      simp at hrun
    | some parsed =>
      rw [hp] at hrun
      dsimp only at hrun
      by_cases hs : (scrape_page env (withScheme seed)).success
      · rw [hs] at hrun
        simp only [Bool.not_true, Bool.false_eq_true, if_false] at hrun
        cases hb : buildScored (insertSet v0 ⟨normCore parsed⟩) ⟨parsed.netloc⟩
            (scrape_page env (withScheme seed)).links with
        | error e =>
          rw [hb] at hrun
          dsimp only at hrun
          have hout := Option.some.inj hrun
          subst hout
          simp
          omega
        | ok scored =>
          rw [hb] at hrun
          dsimp only at hrun
          have hout := Option.some.inj hrun
          subst hout
          obtain ⟨ex, hfe, hsub⟩ := crawlLoop_fetched env
            (pySlice (mp - 1) (pySortDesc scored))
            ⟨insertSet v0 ⟨normCore parsed⟩,
             [⟨withScheme seed, "Homepage", (scrape_page env (withScheme seed)).text.data.length⟩],
             (scrape_page env (withScheme seed)).text ++ "\n\n", 1,
             mergeSignals [] (scrape_page env (withScheme seed)).signals, none,
             [withScheme seed], 0⟩
          have h2 := hsub.length_le
          rw [List.length_map] at h2
          have h3 := pySlice_length_le (mp - 1) (pySortDesc scored) (by omega)
          dsimp only
          rw [hfe]
          simp only [List.length_append, List.length_cons, List.length_nil]
          omega
      · rw [eq_false_of_ne_true hs] at hrun
        simp only [Bool.not_false, if_true] at hrun
        have hout := Option.some.inj hrun
        subst hout
        simp
        omega

/-- C6 witness: the fetch-count cap applied to Scenario D. -/
theorem C6_witness :
    ((1 : Int) ≤ 3 ∧
      crawl_website envD [] "d.io" 3
        = some ((crawl_website envD [] "d.io" 3).get (by decide))) ∧
    (((crawl_website envD [] "d.io" 3).get (by decide)).fetched.length : Int) ≤ 3 :=
  ⟨⟨by decide, (Option.some_get (by decide)).symm⟩,
   C6_ranking_and_selection.2.2.2.1 envD [] "d.io" 3 _ (by decide)
     (Option.some_get (by decide)).symm⟩


/-! ## Claim C9: normalization.  Character-level helper lemmas -/

theorem uint32_le_iff (a b : UInt32) : a ≤ b ↔ a.toNat ≤ b.toNat := by
  simp [UInt32.le_def, BitVec.le_def, UInt32.toNat]

theorem char_ofNat_toNat (n : Nat) (h : n.isValidChar) : (Char.ofNat n).toNat = n := by
  simp only [Char.ofNat, dif_pos h]
  simp [Char.ofNatAux, Char.toNat, UInt32.toNat, UInt32.ofNat', BitVec.toNat_ofNatLt]

theorem isUpper_toNat (c : Char) : c.isUpper = true ↔ 65 ≤ c.toNat ∧ c.toNat ≤ 90 := by
  simp only [Char.isUpper, Bool.and_eq_true, decide_eq_true_eq, ge_iff_le, uint32_le_iff]
  constructor
  · intro ⟨h1, h2⟩
    exact ⟨by simpa using h1, by simpa using h2⟩
  · intro ⟨h1, h2⟩
    exact ⟨by simpa using h1, by simpa using h2⟩

theorem isLower_toNat (c : Char) : c.isLower = true ↔ 97 ≤ c.toNat ∧ c.toNat ≤ 122 := by
  simp only [Char.isLower, Bool.and_eq_true, decide_eq_true_eq, ge_iff_le, uint32_le_iff]
  constructor
  · intro ⟨h1, h2⟩
    exact ⟨by simpa using h1, by simpa using h2⟩
  · intro ⟨h1, h2⟩
    exact ⟨by simpa using h1, by simpa using h2⟩

theorem isDigit_toNat (c : Char) : c.isDigit = true ↔ 48 ≤ c.toNat ∧ c.toNat ≤ 57 := by
  simp only [Char.isDigit, Bool.and_eq_true, decide_eq_true_eq, ge_iff_le, uint32_le_iff]
  constructor
  · intro ⟨h1, h2⟩
    exact ⟨by simpa using h1, by simpa using h2⟩
  · intro ⟨h1, h2⟩
    exact ⟨by simpa using h1, by simpa using h2⟩

theorem isAlpha_toNat (c : Char) :
    c.isAlpha = true ↔ (65 ≤ c.toNat ∧ c.toNat ≤ 90) ∨ (97 ≤ c.toNat ∧ c.toNat ≤ 122) := by
  simp [Char.isAlpha, isUpper_toNat, isLower_toNat]

theorem char_eq_iff_toNat (c d : Char) : c = d ↔ c.toNat = d.toNat := by
  constructor
  · intro h
    rw [h]
  · intro h
    exact Char.eq_of_val_eq (UInt32.toNat.inj h)

theorem toLower_toNat (c : Char) :
    (Char.toLower c).toNat
      = if 65 ≤ c.toNat ∧ c.toNat ≤ 90 then c.toNat + 32 else c.toNat := by
  unfold Char.toLower
  dsimp only
  split
  · next h => exact char_ofNat_toNat _ (Or.inl (by omega))
  · rfl

theorem toLower_eq_self (c : Char) (h : ¬(65 ≤ c.toNat ∧ c.toNat ≤ 90)) :
    Char.toLower c = c := by
  unfold Char.toLower
  dsimp only
  rw [if_neg h]

theorem toLower_idem (c : Char) : Char.toLower (Char.toLower c) = Char.toLower c := by
  by_cases h : 65 ≤ c.toNat ∧ c.toNat ≤ 90
  · apply toLower_eq_self
    rw [toLower_toNat, if_pos h]
    omega
  · rw [toLower_eq_self c h]
    exact toLower_eq_self c h

theorem lowerL_idem (l : List Char) : lowerL (lowerL l) = lowerL l := by
  unfold lowerL
  rw [List.map_map]
  apply List.map_congr_left
  intro c _
  exact toLower_idem c

theorem toLower_isAlpha (c : Char) (h : c.isAlpha = true) :
    (Char.toLower c).isAlpha = true := by
  rw [isAlpha_toNat] at h ⊢
  rw [toLower_toNat]
  split <;> omega

theorem toLower_schemeChar (c : Char) (h : schemeChar c = true) :
    schemeChar (Char.toLower c) = true := by
  unfold schemeChar at h ⊢
  simp only [Bool.or_eq_true, beq_iff_eq] at h ⊢
  rcases h with (((ha | hd) | hp) | hm) | hd2
  · exact Or.inl (Or.inl (Or.inl (Or.inl (toLower_isAlpha c ha))))
  · rw [isDigit_toNat] at hd
    refine Or.inl (Or.inl (Or.inl (Or.inr ?_)))
    rw [isDigit_toNat, toLower_toNat, if_neg (by omega)]
    exact hd
  · subst hp
    decide
  · subst hm
    decide
  · subst hd2
    decide

theorem schemeChar_toNat_facts (c : Char) (h : schemeChar c = true) :
    32 < c.toNat ∧ c.toNat ≠ 58 := by
  unfold schemeChar at h
  simp only [Bool.or_eq_true, beq_iff_eq] at h
  rcases h with (((ha | hd) | hp) | hm) | hd2
  · rw [isAlpha_toNat] at ha
    omega
  · rw [isDigit_toNat] at hd
    omega
  · subst hp
    exact ⟨by decide, by decide⟩
  · subst hm
    exact ⟨by decide, by decide⟩
  · subst hd2
    exact ⟨by decide, by decide⟩

theorem isAlpha_toNat_gt32 (c : Char) (h : c.isAlpha = true) : 32 < c.toNat := by
  rw [isAlpha_toNat] at h
  omega

/-! ## List stop lemmas -/

theorem takeWhile_append_stop {α : Type} (p : α → Bool) (t m : List α) (x : α)
    (hx : p x = false) : (t ++ x :: m).takeWhile p = t.takeWhile p := by
  induction t with
  | nil => simp [List.takeWhile_cons, hx]
  | cons a t ih =>
    simp only [List.cons_append, List.takeWhile_cons]
    by_cases pa : p a <;> simp [pa, ih]

theorem dropWhile_append_stop {α : Type} (p : α → Bool) (t m : List α) (x : α)
    (hx : p x = false) : (t ++ x :: m).dropWhile p = t.dropWhile p ++ x :: m := by
  induction t with
  | nil => simp [List.dropWhile_cons, hx]
  | cons a t ih =>
    simp only [List.cons_append, List.dropWhile_cons]
    by_cases pa : p a <;> simp [pa, ih]

theorem takeWhile_all {α : Type} (p : α → Bool) (l : List α) (h : ∀ a ∈ l, p a = true) :
    l.takeWhile p = l :=
  List.takeWhile_eq_self_iff.mpr h

theorem dropWhile_all {α : Type} (p : α → Bool) (l : List α) (h : ∀ a ∈ l, p a = true) :
    l.dropWhile p = [] := by
  induction l with
  | nil => rfl
  | cons a t ih =>
    rw [List.dropWhile_cons, if_pos (h a (List.mem_cons_self a t))]
    exact ih (fun b hb => h b (List.mem_cons_of_mem a hb))

/-! ## `rstripSlash` lemmas -/

theorem rstripSlash_append_slash (l : List Char) :
    rstripSlash (l ++ ['/']) = rstripSlash l := by
  unfold rstripSlash
  rw [List.reverse_append]
  rfl

theorem rstripSlash_prefix (l : List Char) : rstripSlash l <+: l := by
  unfold rstripSlash
  have h := List.dropWhile_suffix (l := l.reverse) (fun c => c == '/')
  have := h.reverse
  simpa using this

theorem dropWhile_self_idem {α : Type} (p : α → Bool) (l : List α) :
    (l.dropWhile p).dropWhile p = l.dropWhile p := by
  induction l with
  | nil => rfl
  | cons a t ih =>
    rw [List.dropWhile_cons]
    by_cases pa : p a
    · rw [if_pos pa]
      exact ih
    · rw [if_neg pa, List.dropWhile_cons, if_neg pa]

theorem rstripSlash_idem (l : List Char) : rstripSlash (rstripSlash l) = rstripSlash l := by
  unfold rstripSlash
  rw [List.reverse_reverse]
  congr 1
  exact dropWhile_self_idem _ _

/-! ## Sanitization/append lemmas -/

theorem mem_sanitize_keep (l : List Char) (c : Char) (h : c ∈ sanitize l) :
    (!(c == '\t' || c == '\r' || c == '\n')) = true := by
  unfold sanitize at h
  exact (List.mem_filter.mp h).2

theorem sanitize_append_hash (l f : List Char) :
    sanitize (l ++ '#' :: f)
      = sanitize l ++ '#' :: (f.filter (fun c => !(c == '\t' || c == '\r' || c == '\n'))) := by
  unfold sanitize
  rw [List.dropWhile_append]
  split
  · next h =>
    rw [List.isEmpty_iff] at h
    rw [h, List.dropWhile_cons, if_neg (by decide)]
    simp [List.filter_cons]
  · rw [List.filter_append]
    simp [List.filter_cons]

theorem sanitize_append_slash (l : List Char) :
    sanitize (l ++ ['/']) = sanitize l ++ ['/'] := by
  unfold sanitize
  rw [List.dropWhile_append]
  split
  · next h =>
    rw [List.isEmpty_iff] at h
    rw [h]
    simp
  · rw [List.filter_append]
    simp

/-! ## `splitScheme` and `splitNetlocAt2` append lemmas -/

theorem headAlpha_append_of_ne_nil (l m : List Char) (h : l ≠ []) :
    headAlpha (l ++ m) = headAlpha l := by
  cases l with
  | nil => exact absurd rfl h
  | cons c t => rfl

theorem splitScheme_append (l m : List Char) (x : Char) (hx1 : (x != ':') = true)
    (hx2 : schemeChar x = false) :
    splitScheme (l ++ x :: m) = ((splitScheme l).1, (splitScheme l).2 ++ x :: m) := by
  unfold splitScheme
  dsimp only
  by_cases hcol : (l.takeWhile (fun c => c != ':')).length < l.length
  · have htw : (l ++ x :: m).takeWhile (fun c => c != ':')
        = l.takeWhile (fun c => c != ':') := by
      rw [List.takeWhile_append, if_neg (by omega)]
    have hl : l ≠ [] := by
      rintro rfl
      simp at hcol
    rw [htw, headAlpha_append_of_ne_nil l (x :: m) hl]
    by_cases hcond : headAlpha l = true ∧ (l.takeWhile (fun c => c != ':')).all schemeChar = true
    · rw [if_pos ⟨by simp only [List.length_append]; omega, hcond.1, hcond.2⟩,
        if_pos ⟨hcol, hcond.1, hcond.2⟩]
      dsimp only
      rw [List.drop_append_of_le_length (by omega)]
    · rw [if_neg (fun hc => hcond ⟨hc.2.1, hc.2.2⟩), if_neg (fun hc => hcond ⟨hc.2.1, hc.2.2⟩)]
  · have hpre : l.takeWhile (fun c => c != ':') = l := by
      refine (List.takeWhile_prefix _).eq_of_length ?_
      have := (List.takeWhile_prefix (p := fun c => c != ':') (l := l)).length_le
      omega
    have htw : (l ++ x :: m).takeWhile (fun c => c != ':')
        = l ++ x :: m.takeWhile (fun c => c != ':') := by
      rw [List.takeWhile_append, if_pos (by rw [hpre]), List.takeWhile_cons, if_pos hx1]
    rw [htw]
    have hall : (l ++ x :: m.takeWhile (fun c => c != ':')).all schemeChar = false := by
      rw [List.all_eq_false]
      exact ⟨x, by simp, by simp [hx2]⟩
    rw [if_neg (fun hc => by rw [hall] at hc; exact Bool.false_ne_true hc.2.2),
      if_neg (fun hc => hcol hc.1)]

theorem splitNetlocAt2_append_nonslash (rest m : List Char) (x : Char)
    (hx1 : urlDelim x = true) (hx2 : x ≠ '/') :
    splitNetlocAt2 (rest ++ x :: m)
      = (splitNetlocAt2 rest).map (fun nl => (nl.1, nl.2 ++ x :: m)) := by
  unfold splitNetlocAt2
  by_cases h2 : rest.take 2 = ['/', '/']
  · have hlen : 2 ≤ rest.length := by
      have := congrArg List.length h2
      simp [List.length_take] at this
      omega
    have h2' : (rest ++ x :: m).take 2 = ['/', '/'] := by
      rw [List.take_append_of_le_length hlen, h2]
    rw [if_pos h2, if_pos h2']
    dsimp only
    rw [List.drop_append_of_le_length hlen]
    rw [takeWhile_append_stop _ _ _ _ (by simp [hx1]),
      dropWhile_append_stop _ _ _ _ (by simp [hx1])]
    split <;> rfl
  · have h2' : ¬ (rest ++ x :: m).take 2 = ['/', '/'] := by
      intro hc
      rcases rest with _ | ⟨a, _ | ⟨b, t⟩⟩
      · have hx : x = '/' := by
          cases m with
          | nil => simp at hc
          | cons y t2 =>
            simp at hc
            exact hc.1
        exact hx2 hx
      · simp at hc
        exact hx2 hc.2
      · rw [List.take_append_of_le_length (by simp)] at hc
        exact h2 hc
    rw [if_neg h2, if_neg h2']
    rfl

/-! ## Normalization through `urlsplit` -/

/-- The scheme, netloc and path of a split result (the components the
normalizer consumes). -/
def projQ (r : SplitResult) : List Char × List Char × List Char :=
  (r.scheme, r.netloc, r.path)

theorem urlsplitSan_append_hash (l f : List Char) :
    (urlsplitSan (l ++ '#' :: f)).map projQ = (urlsplitSan l).map projQ := by
  unfold urlsplitSan
  dsimp only
  rw [splitScheme_append l f '#' (by decide) (by decide)]
  rw [splitNetlocAt2_append_nonslash _ f '#' (by decide) (by decide)]
  cases hnl : splitNetlocAt2 (splitScheme l).2 with
  | none => rfl
  | some nl =>
    dsimp only [Option.map]
    unfold splitFirst
    dsimp only
    rw [takeWhile_append_stop _ _ _ _ (by decide)]
    rfl

/-- What `normalize_url` computes from an `urlsplit` result: params
splitting for `uses_params` schemes, then
`scheme ++ "://" ++ netloc ++ path.rstrip('/')`. -/
def normOfSplit (r : SplitResult) : List Char :=
  let path := if uses_params.contains r.scheme && r.path.contains ';' then
    (splitParams r.path).1 else r.path
  r.scheme ++ (':' :: '/' :: '/' :: []) ++ r.netloc ++ rstripSlash path

theorem normalize_via_urlsplit (u : String) :
    normalize_url u = (urlsplit u.data).map (fun r => (⟨normOfSplit r⟩ : String)) := by
  unfold normalize_url urlparseCore
  cases h : urlsplit u.data with
  | none => rfl
  | some r =>
    dsimp only
    conv_rhs => rw [Option.map_some']
    unfold normOfSplit
    dsimp only
    split <;> rfl

theorem normOfSplit_congr (a b : SplitResult) (h : projQ a = projQ b) :
    normOfSplit a = normOfSplit b := by
  unfold projQ at h
  have h1 : a.scheme = b.scheme := congrArg (fun p => p.1) h
  have h2 : a.netloc = b.netloc := congrArg (fun p => p.2.1) h
  have h3 : a.path = b.path := congrArg (fun p => p.2.2) h
  unfold normOfSplit
  rw [h1, h2, h3]

/-- Fragment invariance: appending `#`-plus-anything never changes the
normalized URL (the fragment is split off before every component the
normalizer uses). -/
theorem norm_hash_invariant (u f : String) :
    normalize_url (u ++ "#" ++ f) = normalize_url u := by
  rw [normalize_via_urlsplit, normalize_via_urlsplit]
  have hdata : (u ++ "#" ++ f).data = u.data ++ '#' :: f.data := by
    simp [String.data_append]
  rw [hdata]
  unfold urlsplit
  rw [sanitize_append_hash]
  have h := urlsplitSan_append_hash (sanitize u.data)
    (f.data.filter (fun c => !(c == '\t' || c == '\r' || c == '\n')))
  cases hA : urlsplitSan (sanitize u.data) with
  | none =>
    rw [hA] at h
    cases hB : urlsplitSan (sanitize u.data ++ '#' ::
        f.data.filter (fun c => !(c == '\t' || c == '\r' || c == '\n'))) with
    | none => rfl
    | some r =>
      rw [hB] at h
      simp at h
  | some r =>
    rw [hA] at h
    cases hB : urlsplitSan (sanitize u.data ++ '#' ::
        f.data.filter (fun c => !(c == '\t' || c == '\r' || c == '\n'))) with
    | none =>
      rw [hB] at h
      simp at h
    | some r2 =>
      rw [hB] at h
      simp only [Option.map_some'] at h
      have hq := Option.some.inj h
      dsimp only [Option.map]
      rw [normOfSplit_congr r2 r hq]


/-! ## Trailing-slash invariance -/

/-- The raw path produced after the fragment and query splits. -/
def pathOf (rest2 : List Char) : List Char :=
  (splitFirst '?' (splitFirst '#' rest2).1).1

theorem urlsplitSan_eq (l : List Char) :
    urlsplitSan l = (splitNetlocAt2 (splitScheme l).2).map
      (fun nl => ⟨(splitScheme l).1, nl.1, pathOf nl.2,
        (splitFirst '?' (splitFirst '#' nl.2).1).2, (splitFirst '#' nl.2).2⟩) := by
  unfold urlsplitSan pathOf
  dsimp only
  cases h : splitNetlocAt2 (splitScheme l).2 <;> rfl

theorem splitNetlocAt2_append_slash (rest : List Char) (hne : rest ≠ ['/']) :
    splitNetlocAt2 (rest ++ ['/'])
      = (splitNetlocAt2 rest).map (fun nl => (nl.1, nl.2 ++ ['/'])) := by
  unfold splitNetlocAt2
  by_cases h2 : rest.take 2 = ['/', '/']
  · have hlen : 2 ≤ rest.length := by
      have := congrArg List.length h2
      simp [List.length_take] at this
      omega
    have h2' : (rest ++ ['/']).take 2 = ['/', '/'] := by
      rw [List.take_append_of_le_length hlen, h2]
    rw [if_pos h2, if_pos h2']
    dsimp only
    rw [List.drop_append_of_le_length hlen]
    rw [takeWhile_append_stop _ _ _ _ (by decide),
      dropWhile_append_stop _ _ _ _ (by decide)]
    split <;> rfl
  · have h2' : ¬ (rest ++ ['/']).take 2 = ['/', '/'] := by
      intro hc
      rcases rest with _ | ⟨a, _ | ⟨b, t⟩⟩
      · simp at hc
      · simp at hc
        exact hne (by rw [hc])
      · rw [List.take_append_of_le_length (by simp)] at hc
        exact h2 hc
    rw [if_neg h2, if_neg h2']
    rfl

theorem pathOf_append_slash (rest2 : List Char) :
    pathOf (rest2 ++ ['/']) = pathOf rest2
      ∨ pathOf (rest2 ++ ['/']) = pathOf rest2 ++ ['/'] := by
  unfold pathOf splitFirst
  dsimp only
  rw [List.takeWhile_append]
  split
  · next hlen =>
    have hpq : rest2.takeWhile (fun d => d != '#') = rest2 :=
      (List.takeWhile_prefix _).eq_of_length hlen
    rw [show List.takeWhile (fun d => d != '#') ['/'] = ['/'] from rfl]
    rw [List.takeWhile_append]
    split
    · next hlen2 =>
      right
      have hq : rest2.takeWhile (fun d => d != '?') = rest2 :=
        (List.takeWhile_prefix _).eq_of_length hlen2
      rw [show List.takeWhile (fun d => d != '?') ['/'] = ['/'] from rfl]
      rw [hpq, hq]
    · next hlen2 =>
      left
      rw [hpq]
  · left
    rfl

/-- Trailing-slash invariance: when the raw parsed path carries no `;`
(no params splitting), appending a slash does not change the normalized
URL. -/
theorem norm_slash_invariant (u : String)
    (hsc : (urlsplit u.data).all (fun r => !(r.path.contains ';')) = true) :
    normalize_url (u ++ "/") = normalize_url u := by
  rw [normalize_via_urlsplit, normalize_via_urlsplit]
  have hdata : (u ++ "/").data = u.data ++ ['/'] := by
    simp [String.data_append]
  rw [hdata]
  unfold urlsplit at hsc ⊢
  rw [sanitize_append_slash]
  rw [urlsplitSan_eq (sanitize u.data ++ ['/']), urlsplitSan_eq (sanitize u.data)]
  rw [urlsplitSan_eq (sanitize u.data)] at hsc
  rw [splitScheme_append (sanitize u.data) [] '/' (by decide) (by decide)]
  by_cases hrest : (splitScheme (sanitize u.data)).2 = ['/']
  · rw [hrest]
    have e1 : splitNetlocAt2 (['/'] ++ ['/']) = some ([], []) := by decide
    have e2 : splitNetlocAt2 ['/'] = some ([], ['/']) := by decide
    rw [e1, e2]
    simp only [Option.map_some']
    congr 1
    unfold normOfSplit pathOf splitFirst
    dsimp only
    rw [show List.takeWhile (fun d => d != '?')
          (List.takeWhile (fun d => d != '#') ([] : List Char)) = [] from by decide,
      show List.takeWhile (fun d => d != '?')
          (List.takeWhile (fun d => d != '#') (['/'] : List Char)) = ['/'] from by decide,
      show (([] : List Char).contains ';') = false from by decide,
      show ((['/'] : List Char).contains ';') = false from by decide]
    simp only [Bool.and_false, Bool.false_eq_true, if_false]
    rw [show rstripSlash (['/'] : List Char) = [] from by decide,
      show rstripSlash ([] : List Char) = [] from by decide]
  · rw [splitNetlocAt2_append_slash _ hrest]
    cases hnl : splitNetlocAt2 (splitScheme (sanitize u.data)).2 with
    | none => rfl
    | some nl =>
      rw [hnl] at hsc
      simp only [Option.map_some', Option.all_some] at hsc
      simp only [Option.map_some']
      congr 1
      have hr : (pathOf nl.2).contains ';' = false := by
        simpa using hsc
      rcases pathOf_append_slash nl.2 with hp | hp
      · congr 1
        apply normOfSplit_congr
        simp [projQ, hp]
      · unfold normOfSplit
        dsimp only
        rw [hp]
        have hc1 : (pathOf nl.2 ++ ['/']).contains ';' = false := by
          rw [Bool.eq_false_iff]
          intro hmem
          rw [List.contains_eq_any_beq] at hmem hr
          rw [List.any_append] at hmem
          rw [hr] at hmem
          simp at hmem
        rw [hr, hc1]
        simp only [Bool.and_false, Bool.false_eq_true, if_false]
        rw [rstripSlash_append_slash]


/-! ## Idempotence on authority-form URLs -/

theorem keep_of_gt32 (c : Char) (h : 32 < c.toNat) :
    (!(c == '\t' || c == '\r' || c == '\n')) = true := by
  have h1 : c ≠ '\t' := fun hc => by
    rw [char_eq_iff_toNat] at hc
    rw [show ('\t').toNat = 9 from rfl] at hc
    omega
  have h2 : c ≠ '\r' := fun hc => by
    rw [char_eq_iff_toNat] at hc
    rw [show ('\r').toNat = 13 from rfl] at hc
    omega
  have h3 : c ≠ '\n' := fun hc => by
    rw [char_eq_iff_toNat] at hc
    rw [show ('\n').toNat = 10 from rfl] at hc
    omega
  simp [h1, h2, h3]

theorem dropWhile_cons_head {α : Type} (p : α → Bool) (l : List α) (d : α) (t : List α)
    (h : l.dropWhile p = d :: t) : p d = false := by
  induction l with
  | nil => exact absurd h (by simp)
  | cons a l ih =>
    rw [List.dropWhile_cons] at h
    by_cases pa : p a
    · rw [if_pos pa] at h
      exact ih h
    · rw [if_neg pa] at h
      have : a = d := (List.cons.injEq _ _ _ _ ▸ h).1
      rw [← this]
      exact Bool.eq_false_iff.mpr pa

theorem contains_false_mono (l1 l2 : List Char) (a : Char) (hsub : l2 ⊆ l1)
    (hc : l1.contains a = false) : l2.contains a = false := by
  rw [Bool.eq_false_iff]
  intro h2
  have hm : a ∈ l2 := by
    simpa using h2
  have hm1 : a ∈ l1 := hsub hm
  rw [Bool.eq_false_iff] at hc
  exact hc (by simpa using hm1)

theorem sanitize_eq_self (N : List Char)
    (hk : ∀ c ∈ N, (!(c == '\t' || c == '\r' || c == '\n')) = true)
    (hh : ∀ c ∈ N.take 1, 32 < c.toNat) : sanitize N = N := by
  cases N with
  | nil => rfl
  | cons c t =>
    unfold sanitize
    rw [List.dropWhile_cons,
      if_neg (by simp only [decide_eq_true_eq]; have := hh c (by simp); omega)]
    exact List.filter_eq_self.mpr hk

theorem urlsplitSan_canonical (sc n p : List Char)
    (hs_ne : sc ≠ [])
    (hs_head : headAlpha sc = true)
    (hs_all : sc.all schemeChar = true)
    (hs_lower : lowerL sc = sc)
    (hn : ∀ c ∈ n, urlDelim c = false)
    (hbr : ((n.contains '[' && !n.contains ']')
           || (n.contains ']' && !n.contains '[')) = false)
    (hP : p = [] ∨ ∃ tl, p = '/' :: tl)
    (hPh : ∀ c ∈ p, (c != '#') = true)
    (hPq : ∀ c ∈ p, (c != '?') = true) :
    urlsplitSan (sc ++ ':' :: '/' :: '/' :: (n ++ p)) = some ⟨sc, n, p, [], []⟩ := by
  have hs_colon : ∀ c ∈ sc, (c != ':') = true := by
    intro c hc
    have hsc := (List.all_eq_true.mp hs_all) c hc
    have := (schemeChar_toNat_facts c hsc).2
    simp only [bne_iff_ne, ne_eq]
    intro he
    rw [char_eq_iff_toNat] at he
    rw [show (':').toNat = 58 from rfl] at he
    exact this he
  have htw : (sc ++ ':' :: '/' :: '/' :: (n ++ p)).takeWhile (fun c => c != ':') = sc := by
    rw [takeWhile_append_stop _ _ _ _ (by decide)]
    exact takeWhile_all _ _ hs_colon
  have hdrop : (sc ++ ':' :: '/' :: '/' :: (n ++ p)).drop (sc.length + 1)
      = '/' :: '/' :: (n ++ p) := by
    have h0 := List.drop_left (sc ++ [':']) ('/' :: '/' :: (n ++ p))
    rw [show (sc ++ [':']).length = sc.length + 1 from by simp] at h0
    rw [show (sc ++ [':']) ++ '/' :: '/' :: (n ++ p)
        = sc ++ ':' :: '/' :: '/' :: (n ++ p) from by simp] at h0
    exact h0
  have hsplit : splitScheme (sc ++ ':' :: '/' :: '/' :: (n ++ p))
      = (sc, '/' :: '/' :: (n ++ p)) := by
    unfold splitScheme
    dsimp only
    rw [htw]
    rw [if_pos ⟨by simp, by rw [headAlpha_append_of_ne_nil _ _ hs_ne]; exact hs_head,
      hs_all⟩]
    rw [hdrop, hs_lower]
  have hnall : ∀ c ∈ n, (!urlDelim c) = true := by
    intro c hc
    rw [hn c hc]
    rfl
  have htn : (n ++ p).takeWhile (fun c => !urlDelim c) = n := by
    rcases hP with rfl | ⟨tl, rfl⟩
    · rw [List.append_nil]
      exact takeWhile_all _ _ hnall
    · rw [takeWhile_append_stop _ _ _ _ (by decide)]
      exact takeWhile_all _ _ hnall
  have hdn : (n ++ p).dropWhile (fun c => !urlDelim c) = p := by
    rcases hP with rfl | ⟨tl, rfl⟩
    · rw [List.append_nil]
      exact dropWhile_all _ _ hnall
    · rw [dropWhile_append_stop _ _ _ _ (by decide), dropWhile_all _ _ hnall]
      rfl
  have hnet : splitNetlocAt2 ('/' :: '/' :: (n ++ p)) = some (n, p) := by
    unfold splitNetlocAt2
    rw [if_pos (by rfl)]
    dsimp only
    rw [show ('/' :: '/' :: (n ++ p)).drop 2 = n ++ p from rfl]
    rw [htn, hdn, if_neg (by rw [hbr]; exact Bool.false_ne_true)]
  unfold urlsplitSan
  rw [hsplit]
  dsimp only
  rw [hnet]
  unfold splitFirst
  dsimp only
  rw [takeWhile_all _ _ hPh, dropWhile_all _ _ hPh, takeWhile_all _ _ hPq,
    dropWhile_all _ _ hPq]
  rfl


theorem string_data_mk (l : List Char) : (String.mk l).data = l := rfl

/-- On a URL that carries an explicit scheme and an authority part
(`scheme://netloc...`) and whose path has no `;`, `normalize_url` is
idempotent: normalizing the normalized URL returns it unchanged. -/
theorem norm_idem_auth (u : String)
    (hs : (splitScheme (sanitize u.data)).1 ≠ [])
    (hauth : (splitScheme (sanitize u.data)).2.take 2 = ['/', '/'])
    (hsc : (urlsplit u.data).all (fun r => !(r.path.contains ';')) = true) :
    (normalize_url u).bind normalize_url = normalize_url u := by
  rw [normalize_via_urlsplit u]
  unfold urlsplit at hsc ⊢
  rw [urlsplitSan_eq] at hsc ⊢
  set l := sanitize u.data with hl_def
  have hcond : (l.takeWhile (fun c => c != ':')).length < l.length
      ∧ headAlpha l = true ∧ (l.takeWhile (fun c => c != ':')).all schemeChar = true := by
    by_contra hc
    apply hs
    show (splitScheme l).1 = []
    unfold splitScheme
    dsimp only
    rw [if_neg hc]
  set pre := l.takeWhile (fun c => c != ':') with hpre_def
  have hsplit : splitScheme l = (lowerL pre, l.drop (pre.length + 1)) := by
    unfold splitScheme
    dsimp only
    rw [← hpre_def, if_pos hcond]
  rw [hsplit] at hauth hsc ⊢
  dsimp only at hauth hsc ⊢
  set rest := l.drop (pre.length + 1) with hrest_def
  have hhead : headAlpha l = true := hcond.2.1
  have hlne : l ≠ [] := by
    intro h0
    rw [h0] at hhead
    exact absurd hhead (by decide)
  obtain ⟨c0, t0, hl0⟩ := List.exists_cons_of_ne_nil hlne
  have hc0alpha : c0.isAlpha = true := by
    rw [hl0] at hhead
    exact hhead
  have hc0ne : (c0 != ':') = true := by
    simp only [bne_iff_ne, ne_eq]
    intro he
    rw [char_eq_iff_toNat] at he
    rw [show (':').toNat = 58 from rfl] at he
    rw [isAlpha_toNat] at hc0alpha
    omega
  have hpre_cons : pre = c0 :: t0.takeWhile (fun c => c != ':') := by
    rw [hpre_def, hl0, List.takeWhile_cons, if_pos hc0ne]
  have hs_ne : lowerL pre ≠ [] := by
    rw [hpre_cons]
    simp [lowerL]
  have hs_head : headAlpha (lowerL pre) = true := by
    rw [hpre_cons]
    show (Char.toLower c0).isAlpha = true
    exact toLower_isAlpha c0 hc0alpha
  have hs_all : (lowerL pre).all schemeChar = true := by
    rw [List.all_eq_true]
    intro c hc
    rw [lowerL, List.mem_map] at hc
    obtain ⟨d, hd, rfl⟩ := hc
    exact toLower_schemeChar d ((List.all_eq_true.mp hcond.2.2) d hd)
  have hs_lower : lowerL (lowerL pre) = lowerL pre := lowerL_idem pre
  cases hnet0 : splitNetlocAt2 rest with
  | none => rfl
  | some nl =>
    obtain ⟨n, rest2⟩ := nl
    rw [hnet0] at hsc
    rw [Option.map_some'] at hsc
    dsimp only at hsc
    rw [Option.all_some] at hsc
    dsimp only at hsc
    have hscP : (pathOf rest2).contains ';' = false := by
      simpa using hsc
    have hnet1 := hnet0
    unfold splitNetlocAt2 at hnet1
    rw [if_pos hauth] at hnet1
    dsimp only at hnet1
    split at hnet1
    next hbrc => exact absurd hnet1 (by simp)
    next hbrc =>
      rw [Option.some.injEq, Prod.mk.injEq] at hnet1
      obtain ⟨hn_eq, hr2_eq⟩ := hnet1
      have hbr : ((n.contains '[' && !n.contains ']')
          || (n.contains ']' && !n.contains '[')) = false := by
        rw [← hn_eq]
        exact Bool.eq_false_iff.mpr hbrc
      have hn_mem : ∀ c ∈ n, urlDelim c = false := by
        intro c hc
        rw [← hn_eq] at hc
        have := List.mem_takeWhile_imp hc
        simpa using this
      have hn_sub : ∀ c ∈ n, c ∈ l := by
        intro c hc
        rw [← hn_eq] at hc
        have h1 : c ∈ rest.drop 2 := (List.takeWhile_sublist _).subset hc
        have h2 : c ∈ rest := List.drop_subset _ _ h1
        rw [hrest_def] at h2
        exact List.drop_subset _ _ h2
      have hP_shape : pathOf rest2 = [] ∨ ∃ tl, pathOf rest2 = '/' :: tl := by
        cases hc2 : rest2 with
        | nil => left; rfl
        | cons d tl2 =>
          rw [hc2] at hr2_eq
          have hd : (fun c => !urlDelim c) d = false :=
            dropWhile_cons_head (fun c => !urlDelim c) (rest.drop 2) d tl2 hr2_eq
          have hd' : urlDelim d = true := by simpa using hd
          have hd3 : d = '/' ∨ d = '?' ∨ d = '#' := by
            simp only [urlDelim, Bool.or_eq_true, beq_iff_eq] at hd'
            tauto
          rcases hd3 with rfl | rfl | rfl
          · right
            refine ⟨(tl2.takeWhile (fun d => d != '#')).takeWhile (fun d => d != '?'), ?_⟩
            unfold pathOf splitFirst
            dsimp only
            rw [List.takeWhile_cons, if_pos (by decide),
              List.takeWhile_cons, if_pos (by decide)]
          · left
            unfold pathOf splitFirst
            dsimp only
            rw [List.takeWhile_cons, if_pos (by decide),
              List.takeWhile_cons, if_neg (by decide)]
          · left
            unfold pathOf splitFirst
            dsimp only
            rw [List.takeWhile_cons, if_neg (by decide)]
            rfl
      have hP_sub_rest2 : ∀ c ∈ pathOf rest2, c ∈ rest2 := by
        intro c hc
        unfold pathOf splitFirst at hc
        dsimp only at hc
        exact (List.takeWhile_sublist _).subset ((List.takeWhile_sublist _).subset hc)
      have hPh : ∀ c ∈ pathOf rest2, (c != '#') = true := by
        intro c hc
        unfold pathOf splitFirst at hc
        dsimp only at hc
        have hc1 : c ∈ rest2.takeWhile (fun d => d != '#') :=
          (List.takeWhile_sublist _).subset hc
        have hc2 := List.mem_takeWhile_imp hc1
        exact hc2
      have hPq : ∀ c ∈ pathOf rest2, (c != '?') = true := by
        intro c hc
        unfold pathOf splitFirst at hc
        dsimp only at hc
        have hc2 := List.mem_takeWhile_imp hc
        exact hc2
      have hP_sub_l : ∀ c ∈ pathOf rest2, c ∈ l := by
        intro c hc
        have h1 : c ∈ rest2 := hP_sub_rest2 c hc
        rw [← hr2_eq] at h1
        have h2 : c ∈ rest.drop 2 := (List.dropWhile_sublist _).subset h1
        have h3 : c ∈ rest := List.drop_subset _ _ h2
        rw [hrest_def] at h3
        exact List.drop_subset _ _ h3
      have hpre_P : rstripSlash (pathOf rest2) <+: pathOf rest2 := rstripSlash_prefix _
      have hP1_shape : rstripSlash (pathOf rest2) = []
          ∨ ∃ tl, rstripSlash (pathOf rest2) = '/' :: tl := by
        rcases hP_shape with hp0 | ⟨tl, hp1⟩
        · left
          rw [hp0]
          rfl
        · cases hcp : rstripSlash (pathOf rest2) with
          | nil => left; rfl
          | cons e es =>
            right
            obtain ⟨tt, htt⟩ := hpre_P
            rw [hcp, hp1] at htt
            have he : e = '/' := by
              have := congrArg (fun x => x.head?) htt
              simpa using this
            exact ⟨es, by rw [he]⟩
      have hP1h : ∀ c ∈ rstripSlash (pathOf rest2), (c != '#') = true :=
        fun c hc => hPh c (hpre_P.subset hc)
      have hP1q : ∀ c ∈ rstripSlash (pathOf rest2), (c != '?') = true :=
        fun c hc => hPq c (hpre_P.subset hc)
      have hP1c : (rstripSlash (pathOf rest2)).contains ';' = false :=
        contains_false_mono _ _ _ hpre_P.subset hscP
      have hP1rs : rstripSlash (rstripSlash (pathOf rest2)) = rstripSlash (pathOf rest2) :=
        rstripSlash_idem _
      have hguard : (uses_params.contains (lowerL pre)
          && (pathOf rest2).contains ';') = false := by
        rw [hscP, Bool.and_false]
      have hguard1 : (uses_params.contains (lowerL pre)
          && (rstripSlash (pathOf rest2)).contains ';') = false := by
        rw [hP1c, Bool.and_false]
      rw [Option.map_some', Option.map_some']
      dsimp only
      have hN : normOfSplit ⟨lowerL pre, n, pathOf rest2,
          (splitFirst '?' (splitFirst '#' rest2).1).2, (splitFirst '#' rest2).2⟩
          = lowerL pre ++ ':' :: '/' :: '/' :: (n ++ rstripSlash (pathOf rest2)) := by
        unfold normOfSplit
        dsimp only
        rw [hguard, if_neg (by decide)]
        simp [List.append_assoc]
      rw [hN]
      rw [Option.some_bind]
      rw [normalize_via_urlsplit]
      unfold urlsplit
      rw [string_data_mk]
      have hkeep : ∀ c ∈ lowerL pre ++ ':' :: '/' :: '/' :: (n ++ rstripSlash (pathOf rest2)),
          (!(c == '\t' || c == '\r' || c == '\n')) = true := by
        intro c hc
        rw [List.mem_append] at hc
        rcases hc with hc | hc
        · rw [lowerL, List.mem_map] at hc
          obtain ⟨d, hd, rfl⟩ := hc
          have hdsc : schemeChar d = true := (List.all_eq_true.mp hcond.2.2) d hd
          exact keep_of_gt32 _ (schemeChar_toNat_facts _ (toLower_schemeChar d hdsc)).1
        · rw [List.mem_cons] at hc
          rcases hc with rfl | hc
          · decide
          rw [List.mem_cons] at hc
          rcases hc with rfl | hc
          · decide
          rw [List.mem_cons] at hc
          rcases hc with rfl | hc
          · decide
          rw [List.mem_append] at hc
          rcases hc with hc | hc
          · have hcl := hn_sub c hc
            rw [hl_def] at hcl
            exact mem_sanitize_keep _ _ hcl
          · have hcl := hP_sub_l c (hpre_P.subset hc)
            rw [hl_def] at hcl
            exact mem_sanitize_keep _ _ hcl
      have htake1 : ∀ c ∈ (lowerL pre ++ ':' :: '/' :: '/' ::
          (n ++ rstripSlash (pathOf rest2))).take 1, 32 < c.toNat := by
        have h1 : (lowerL pre ++ ':' :: '/' :: '/' ::
            (n ++ rstripSlash (pathOf rest2))).take 1 = [Char.toLower c0] := by
          rw [hpre_cons]
          rfl
        intro c hc
        rw [h1, List.mem_singleton] at hc
        rw [hc]
        exact isAlpha_toNat_gt32 _ (toLower_isAlpha c0 hc0alpha)
      rw [sanitize_eq_self _ hkeep htake1]
      rw [urlsplitSan_canonical (lowerL pre) n (rstripSlash (pathOf rest2))
        hs_ne hs_head hs_all hs_lower hn_mem hbr hP1_shape hP1h hP1q]
      rw [Option.map_some']
      have hN2 : normOfSplit ⟨lowerL pre, n, rstripSlash (pathOf rest2), [], []⟩
          = lowerL pre ++ ':' :: '/' :: '/' :: (n ++ rstripSlash (pathOf rest2)) := by
        unfold normOfSplit
        dsimp only
        rw [hguard1, if_neg (by decide), hP1rs]
        simp [List.append_assoc]
      rw [hN2]


/-- C9 counterexample: `normalize_url` is not idempotent on all URL strings,
and trailing-slash equivalence fails in general.  A scheme-less seed such as
`example.com` normalizes to `://example.com`, which re-normalizes to
`://://example.com`; and `http://e.com/a;b/` and `http://e.com/a;b` normalize
to different strings because `urlparse` splits `;params` only in the second
case (the trailing slash makes the last path segment empty). -/
theorem C9_cex :
    normalize_url "example.com" = some "://example.com"
    ∧ normalize_url "://example.com" = some "://://example.com"
    ∧ (normalize_url "example.com").bind normalize_url ≠ normalize_url "example.com"
    ∧ normalize_url "http://e.com/a;b/" = some "http://e.com/a;b"
    ∧ normalize_url "http://e.com/a;b" = some "http://e.com/a"
    ∧ normalize_url ("http://e.com/a;b" ++ "/") ≠ normalize_url "http://e.com/a;b" := by
  refine ⟨by decide, by decide, ?_, by decide, by decide, ?_⟩
  · decide
  · decide

/-- C9 (amended): the fragment half of the claim holds unconditionally —
appending `#` plus anything never changes the normalized URL.  The
trailing-slash half holds whenever the parsed path contains no `;`, and
idempotence holds for every URL with an explicit scheme, an authority part
(`scheme://...`), and no `;` in its path — in particular for every URL that
`normalize_url` itself emits from such input. -/
theorem C9_amended (u v : String)
    (hslash : (urlsplit v.data).all (fun r => !(r.path.contains ';')) = true)
    (hsch : (splitScheme (sanitize u.data)).1 ≠ [])
    (hauth : (splitScheme (sanitize u.data)).2.take 2 = ['/', '/'])
    (hsemi : (urlsplit u.data).all (fun r => !(r.path.contains ';')) = true) :
    (normalize_url u).bind normalize_url = normalize_url u
    ∧ normalize_url (v ++ "/") = normalize_url v
    ∧ ∀ w f : String, normalize_url (w ++ "#" ++ f) = normalize_url w :=
  ⟨norm_idem_auth u hsch hauth hsemi, norm_slash_invariant v hslash,
   fun w f => norm_hash_invariant w f⟩

theorem C9_witness :
    ((urlsplit ("http://e.com/x").data).all (fun r => !(r.path.contains ';')) = true
      ∧ (splitScheme (sanitize ("https://example.com/a/").data)).1 ≠ []
      ∧ (splitScheme (sanitize ("https://example.com/a/").data)).2.take 2 = ['/', '/']
      ∧ (urlsplit ("https://example.com/a/").data).all
          (fun r => !(r.path.contains ';')) = true)
    ∧ ((normalize_url "https://example.com/a/").bind normalize_url
        = normalize_url "https://example.com/a/"
      ∧ normalize_url ("http://e.com/x" ++ "/") = normalize_url "http://e.com/x"
      ∧ normalize_url ("http://e.com/y" ++ "#" ++ "sec")
        = normalize_url "http://e.com/y") := by
  refine ⟨⟨by decide, by decide, by decide, by decide⟩, ?_⟩
  have h := C9_amended "https://example.com/a/" "http://e.com/x"
    (by decide) (by decide) (by decide) (by decide)
  exact ⟨h.1, h.2.1, h.2.2 "http://e.com/y" "sec"⟩

end Spec2Proof
